import Mathlib

/-!
Verification development for the flamego/session repository.

Go source constructs are shallowly embedded as follows:
- Go strings are byte sequences, modelled as `List Nat` (one `Nat` per byte);
- `time.Time` values are modelled as `Int` instants, `t.Before u` is `t < u`,
  `t.Add d` is `t + d`; within one store operation the configured `nowFunc`
  is modelled as a single instant passed as an argument;
- Go maps are association lists whose keys are kept distinct by construction
  (`aupsert` replaces the previous binding);
- Go `interface\x7b\x7d` values stored in session payloads are modelled by the
  inductive `GoVal`;
- fallible operations return `Except String` or carry an `Option String`
  error component (`none` is Go's `nil` error);
- `crypto/rand.Int(rand.Reader, max)` with `max = 36` is an external random
  source returning either an error or a value in `[0, 36)`; it is modelled
  as an oracle `Nat → Option (Fin 36)` indexed by the call counter.
-/

namespace FlamegoSession

/-- Bytes of a Go string. -/
abbrev GoStr := List Nat

/-- A Go `interface\x7b\x7d` value as used for session payload keys/values. -/
inductive GoVal where
  | vstr : GoStr → GoVal
  | vint : Int → GoVal
deriving DecidableEq, Repr

/-- Session payload: the Go map `Data map[interface\x7b\x7d]interface\x7b\x7d`. -/
abbrev Data := List (GoVal × GoVal)

section AssocList

variable {α β : Type} [DecidableEq α]

/-- Go map lookup `m[k]` (the `, ok` form): first binding of `k`. -/
def alookup (k : α) : List (α × β) → Option β
  | [] => none
  | kv :: l => if kv.1 = k then some kv.2 else alookup k l

/-- Remove every binding of `k` (Go `delete(m, k)`). -/
def aeraseKey (k : α) : List (α × β) → List (α × β)
  | [] => []
  | kv :: l => if kv.1 = k then aeraseKey k l else kv :: aeraseKey k l

/-- Go map write `m[k] = v`: bind `k` to `v`, dropping any previous binding. -/
def aupsert (k : α) (v : β) (l : List (α × β)) : List (α × β) :=
  (k, v) :: aeraseKey k l

theorem alookup_aeraseKey_self (k : α) (l : List (α × β)) :
    alookup k (aeraseKey k l) = none := by
  induction l with
  | nil => rfl
  | cons kv t ih =>
    by_cases hk : kv.1 = k
    · simpa [aeraseKey, hk] using ih
    · simp [aeraseKey, hk, alookup, ih]

theorem alookup_aeraseKey_ne (k k' : α) (l : List (α × β)) (h : k ≠ k') :
    alookup k' (aeraseKey k l) = alookup k' l := by
  induction l with
  | nil => rfl
  | cons kv t ih =>
    by_cases hk : kv.1 = k
    · have hk' : kv.1 ≠ k' := by
        rw [hk]; exact h
      simp [aeraseKey, hk, alookup, hk', ih, h]
    · simp only [aeraseKey, if_neg hk]
      by_cases hk' : kv.1 = k'
      · simp [alookup, hk']
      · simp [alookup, hk', ih]

theorem alookup_aupsert_self (k : α) (v : β) (l : List (α × β)) :
    alookup k (aupsert k v l) = some v := by
  simp [aupsert, alookup]

theorem alookup_aupsert_ne (k k' : α) (v : β) (l : List (α × β)) (h : k ≠ k') :
    alookup k' (aupsert k v l) = alookup k' l := by
  have : alookup k' ((k, v) :: aeraseKey k l) = alookup k' (aeraseKey k l) := by
    simp [alookup, h]
  rw [aupsert, this]
  exact alookup_aeraseKey_ne k k' l h

theorem alookup_eq_none_iff (k : α) (l : List (α × β)) :
    alookup k l = none ↔ ∀ kv ∈ l, kv.1 ≠ k := by
  induction l with
  | nil => simp [alookup]
  | cons kv t ih =>
    by_cases hk : kv.1 = k
    · simp [alookup, hk]
    · simp [alookup, hk, ih]

theorem alookup_mem {k : α} {v : β} {l : List (α × β)}
    (h : alookup k l = some v) : (k, v) ∈ l := by
  induction l with
  | nil => simp [alookup] at h
  | cons kv t ih =>
    by_cases hk : kv.1 = k
    · simp only [alookup, if_pos hk] at h
      have hkv : kv = (k, v) := by
        cases kv
        simp_all
      rw [hkv]
      exact List.mem_cons_self _ _
    · simp only [alookup, if_neg hk] at h
      exact List.mem_cons_of_mem _ (ih h)

/-- A present key survives `List.filter` when the predicate keeps its binding. -/
theorem alookup_filter {k : α} {v : β} {l : List (α × β)} (p : α × β → Bool)
    (h : alookup k l = some v) (hp : p (k, v) = true) :
    alookup k (l.filter p) = some v := by
  induction l with
  | nil => simp [alookup] at h
  | cons kv t ih =>
    by_cases hk : kv.1 = k
    · simp only [alookup, if_pos hk] at h
      obtain ⟨h1, h2⟩ : kv.1 = k ∧ kv.2 = v := ⟨hk, by injection h⟩
      have hkv : kv = (k, v) := by cases kv; simp_all
      simp [List.filter, hkv, hp, alookup]
    · simp only [alookup, if_neg hk] at h
      by_cases hpkv : p kv = true
      · simp [List.filter, hpkv, alookup, hk, ih h]
      · simp only [List.filter, Bool.not_eq_true] at hpkv ⊢
        simp [hpkv, ih h]

end AssocList

/-! ### Identifier codec (`manager.go`: `randomChars`, `isValidSessionID`) -/

/-- Bytes of the Go constant `alphanum = "0123456789abcdefghijklmnopqrstuvwxyz"`. -/
def alphanum : List Nat :=
  [48, 49, 50, 51, 52, 53, 54, 55, 56, 57,
   97, 98, 99, 100, 101, 102, 103, 104, 105, 106, 107, 108, 109,
   110, 111, 112, 113, 114, 115, 116, 117, 118, 119, 120, 121, 122]

/-- `randomChars(n)`: draw `n` alphabet indices from the random source; any
draw failing makes the whole call fail (Go returns `("", err)`).  `k` is the
index of the first unused oracle position. -/
def randomCharsFrom (oracle : Nat → Option (Fin 36)) (k : Nat) : Nat → Option GoStr
  | 0 => some []
  | n + 1 =>
    match oracle k with
    | none => none
    | some i =>
      match randomCharsFrom oracle (k + 1) n with
      | none => none
      | some rest => some (alphanum.getD i.val 0 :: rest)

/-- `randomChars(n)` from `manager.go` (starting at oracle position 0). -/
def randomChars (oracle : Nat → Option (Fin 36)) (n : Nat) : Option GoStr :=
  randomCharsFrom oracle 0 n

/-- The byte test in `isValidSessionID`'s switch:
`'0' <= c && c <= '9'` or `'a' <= c && c <= 'z'`. -/
def isAlnumByte (c : Nat) : Bool :=
  (48 ≤ c && c ≤ 57) || (97 ≤ c && c ≤ 122)

/-- `isValidSessionID(sid, idLength)` from `manager.go`: length check, then a
per-byte alphabet check with early `false` return. -/
def isValidSessionID (sid : GoStr) (idLength : Nat) : Bool :=
  if sid.length ≠ idLength then false
  else sid.all isAlnumByte

theorem alphanum_all_alnum : alphanum.all isAlnumByte = true := by decide

theorem alphanum_length : alphanum.length = 36 := by decide

theorem randomCharsFrom_spec (oracle : Nat → Option (Fin 36)) :
    ∀ n k s, randomCharsFrom oracle k n = some s →
      s.length = n ∧ ∀ c ∈ s, c ∈ alphanum := by
  intro n
  induction n with
  | zero =>
    intro k s h
    simp only [randomCharsFrom, Option.some.injEq] at h
    subst h
    simp
  | succ n ih =>
    intro k s h
    simp only [randomCharsFrom] at h
    cases ho : oracle k with
    | none => simp [ho] at h
    | some i =>
      simp only [ho] at h
      cases hr : randomCharsFrom oracle (k + 1) n with
      | none => simp [hr] at h
      | some rest =>
        simp only [hr] at h
        obtain ⟨hlen, hmem⟩ := ih (k + 1) rest hr
        have hs : s = alphanum.getD i.val 0 :: rest := by
          injection h with h
          exact h.symm
        subst hs
        constructor
        · simp [hlen]
        · intro c hc
          rcases List.mem_cons.mp hc with h1 | h2
          · subst h1
            have hlt : i.val < alphanum.length := by
              rw [alphanum_length]; exact i.isLt
            rw [List.getD_eq_getElem _ _ hlt]
            exact List.getElem_mem hlt
          · exact hmem c h2

theorem mem_alphanum_iff (c : Nat) : c ∈ alphanum ↔ isAlnumByte c = true := by
  constructor
  · intro h
    fin_cases h <;> decide
  · intro h
    simp only [isAlnumByte, Bool.or_eq_true, Bool.and_eq_true, decide_eq_true_eq] at h
    simp only [alphanum, List.mem_cons, List.mem_singleton]
    omega

theorem isValidSessionID_iff (sid : GoStr) (n : Nat) :
    isValidSessionID sid n = true ↔
      sid.length = n ∧ ∀ c ∈ sid, isAlnumByte c = true := by
  unfold isValidSessionID
  by_cases h : sid.length = n
  · simp [h, List.all_eq_true]
  · simp [h]

/-! ### Session record (`type.go`: `BaseSession`) -/

/-- Bytes of the Go constant `flashKey = "flamego::session::flash"`. -/
def flashKeyBytes : GoStr := "flamego::session::flash".toList.map Char.toNat

/-- The reserved flash key as a payload key. -/
def flashKey : GoVal := .vstr flashKeyBytes

/-- `BaseSession` from `type.go` (the `sync.RWMutex` guards concurrent access
in Go and has no sequential content). -/
structure BaseSession where
  sid : GoStr
  data : Data
  changed : Bool
  encoder : Data → Option GoStr

/-- `NewBaseSession(sid, encoder)`: empty data, `changed` left at its zero
value `false`. -/
def newBaseSession (sid : GoStr) (encoder : Data → Option GoStr) : BaseSession :=
  { sid := sid, data := [], changed := false, encoder := encoder }

def BaseSession.idOf (s : BaseSession) : GoStr := s.sid

def BaseSession.get (s : BaseSession) (k : GoVal) : Option GoVal :=
  alookup k s.data

def BaseSession.set (s : BaseSession) (k v : GoVal) : BaseSession :=
  { s with changed := true, data := aupsert k v s.data }

def BaseSession.setFlash (s : BaseSession) (v : GoVal) : BaseSession :=
  { s with changed := true, data := aupsert flashKey v s.data }

def BaseSession.del (s : BaseSession) (k : GoVal) : BaseSession :=
  { s with changed := true, data := aeraseKey k s.data }

def BaseSession.flush (s : BaseSession) : BaseSession :=
  { s with changed := true, data := [] }

def BaseSession.encode (s : BaseSession) : Option GoStr :=
  s.encoder s.data

def BaseSession.hasChanged (s : BaseSession) : Bool := s.changed

/-- The state-mutating operations of the `BaseSession` API (`ID`, `Get`,
`Encode` and `HasChanged` take only a read lock and write no field). -/
inductive SessOp where
  | set : GoVal → GoVal → SessOp
  | setFlash : GoVal → SessOp
  | del : GoVal → SessOp
  | flush : SessOp

def applyOp (s : BaseSession) : SessOp → BaseSession
  | .set k v => s.set k v
  | .setFlash v => s.setFlash v
  | .del k => s.del k
  | .flush => s.flush

def applyOps (s : BaseSession) (ops : List SessOp) : BaseSession :=
  ops.foldl applyOp s

/-! ### In-memory store (`memory.go`)

`memorySession` embeds a `*BaseSession` whose encoder is Go `nil` (never
called by the memory backend); its payload operations are the `BaseSession`
ones over `data`.  Pointers `*memorySession` are modelled as indices
(`Ptr`) into an append-only arena; the heap and the index map hold such
pointers, and in-place mutation through a pointer is an update of the
arena cell. -/

abbrev Ptr := Nat

/-- `memorySession`: flattened `BaseSession` fields plus the last-access
time and the heap position (`index` field, `-1` after a pop). -/
structure MemorySession where
  sid : GoStr
  data : Data
  changed : Bool
  lastAccessedAt : Int
  idx : Int
deriving DecidableEq

instance : Inhabited MemorySession := ⟨⟨[], [], false, 0, 0⟩⟩

/-- `newMemorySession(sid)`: zero-valued fields apart from the ID. -/
def memNewSession (sid : GoStr) : MemorySession :=
  { sid := sid, data := [], changed := false, lastAccessedAt := 0, idx := 0 }

/-- `memoryStore`: lifetime plus the heap/index pair over the arena. -/
structure MemoryStore where
  lifetime : Int
  heap : List Ptr
  index : List (GoStr × Ptr)
  arena : List MemorySession

/-- Dereference a session pointer. -/
def getSess (st : MemoryStore) (p : Ptr) : MemorySession :=
  st.arena.getD p default

/-- Write the `index` field of the session `p` points to. -/
def setSessIdx (st : MemoryStore) (p : Ptr) (v : Int) : MemoryStore :=
  { st with arena := st.arena.set p { st.arena.getD p default with idx := v } }

/-- `SetLastAccessedAt` through the pointer `p`. -/
def setSessLast (st : MemoryStore) (p : Ptr) (t : Int) : MemoryStore :=
  { st with arena := st.arena.set p { st.arena.getD p default with lastAccessedAt := t } }

/-- `s.heap[i]`. -/
def hGet (st : MemoryStore) (i : Nat) : Ptr :=
  st.heap.getD i 0

/-- Last-access time of the session at heap position `i`. -/
def lastAt (st : MemoryStore) (i : Nat) : Int :=
  (getSess st (hGet st i)).lastAccessedAt

/-- `memoryStore.Less(i, j)`: `heap[i].LastAccessedAt().Before(heap[j].LastAccessedAt())`. -/
def memLess (st : MemoryStore) (i j : Nat) : Bool :=
  lastAt st i < lastAt st j

/-- `memoryStore.Swap(i, j)`: swap the two heap slots, then store the new
positions in the two sessions' `index` fields. -/
def memSwap (st : MemoryStore) (i j : Nat) : MemoryStore :=
  let pi := hGet st i
  let pj := hGet st j
  let st1 := { st with heap := (st.heap.set i pj).set j pi }
  let st2 := setSessIdx st1 pj i
  setSessIdx st2 pi j

/-- `memoryStore.Push(x)`: record the insertion position in the session,
append it to the heap, bind its ID in the index map. -/
def memPush (st : MemoryStore) (p : Ptr) : MemoryStore :=
  let n := st.heap.length
  let st1 := setSessIdx st p (n : Int)
  { st1 with
    heap := st1.heap ++ [p]
    index := aupsert (getSess st1 p).sid p st1.index }

/-- `memoryStore.Pop()`: detach the last heap slot, mark the session's
position as `-1`, unbind its ID. -/
def memPop (st : MemoryStore) : MemoryStore × Ptr :=
  let n := st.heap.length
  let p := hGet st (n - 1)
  let st1 := setSessIdx st p (-1)
  (({ st1 with
      heap := st1.heap.take (n - 1)
      index := aeraseKey (getSess st1 p).sid st1.index }), p)

/-- `container/heap.up(h, j)` specialised to `memoryStore`'s methods. -/
def heapUpGo (st : MemoryStore) (j : Nat) : MemoryStore :=
  let i := (j - 1) / 2
  if i = j ∨ ¬ memLess st j i = true then st
  else heapUpGo (memSwap st i j) i
termination_by j
decreasing_by
  rename_i h
  push_neg at h
  omega

/-- `container/heap.down(h, i0, n)` specialised to `memoryStore`'s methods;
returns the state and the final position (Go returns `i > i0`). -/
def heapDownGo (st : MemoryStore) (i n : Nat) : MemoryStore × Nat :=
  if 2 * i + 1 < n then
    let j := if 2 * i + 2 < n ∧ memLess st (2 * i + 2) (2 * i + 1) = true
             then 2 * i + 2 else 2 * i + 1
    if memLess st j i = true then heapDownGo (memSwap st i j) j n
    else (st, i)
  else (st, i)
termination_by n - i
decreasing_by
  rename_i hj _
  split <;> omega

/-- `container/heap.Fix(h, i)`. -/
def heapFixGo (st : MemoryStore) (i : Nat) : MemoryStore :=
  let r := heapDownGo st i st.heap.length
  if r.2 > i then r.1 else heapUpGo r.1 i

/-- `container/heap.Push(h, x)`. -/
def heapPushAlg (st : MemoryStore) (p : Ptr) : MemoryStore :=
  let st1 := memPush st p
  heapUpGo st1 (st1.heap.length - 1)

/-- `container/heap.Remove(h, i)`. -/
def heapRemoveGo (st : MemoryStore) (i : Nat) : MemoryStore × Ptr :=
  let n := st.heap.length - 1
  if n ≠ i then
    let st1 := memSwap st i n
    let r := heapDownGo st1 i n
    let st3 := if r.2 > i then r.1 else heapUpGo r.1 i
    memPop st3
  else memPop st

/-- `memoryStore.Exist(sid)`. -/
def memExist (st : MemoryStore) (sid : GoStr) : Bool :=
  (alookup sid st.index).isSome

/-- The shared creation tail of `memoryStore.Read`: build a fresh session
with the requested ID, stamp it with `now`, `heap.Push` it. -/
def memCreateSession (st : MemoryStore) (now : Int) (sid : GoStr) : Ptr × MemoryStore :=
  let p := st.arena.length
  let st1 := { st with arena := st.arena ++ [memNewSession sid] }
  let st2 := setSessLast st1 p now
  (p, heapPushAlg st2 p)

/-- `memoryStore.Read(sid)`; `now` stands for the store's `nowFunc()`
(constant within one call).  The error component is Go's returned error. -/
def memRead (st : MemoryStore) (now : Int) (sid : GoStr) :
    Ptr × MemoryStore × Option String :=
  match alookup sid st.index with
  | some p =>
    if now < (getSess st p).lastAccessedAt + st.lifetime then
      let st1 := setSessLast st p now
      let st2 := heapFixGo st1 (getSess st1 p).idx.toNat
      (p, st2, none)
    else
      let st1 := (heapRemoveGo st (getSess st p).idx.toNat).1
      let r := memCreateSession st1 now sid
      (r.1, r.2, none)
  | none =>
    let r := memCreateSession st now sid
    (r.1, r.2, none)

/-- `memoryStore.Destroy(sid)`. -/
def memDestroy (st : MemoryStore) (sid : GoStr) : MemoryStore × Option String :=
  match alookup sid st.index with
  | none => (st, none)
  | some p => ((heapRemoveGo st (getSess st p).idx.toNat).1, none)

/-- `memoryStore.Save`: a no-op returning `nil`. -/
def memSave (st : MemoryStore) : MemoryStore × Option String :=
  (st, none)

theorem memSwap_heap_length (st : MemoryStore) (i j : Nat) :
    (memSwap st i j).heap.length = st.heap.length := by
  simp [memSwap, setSessIdx]

theorem heapUpGo_heap_length (st : MemoryStore) (j : Nat) :
    (heapUpGo st j).heap.length = st.heap.length := by
  rw [heapUpGo]
  split
  · rfl
  · rw [heapUpGo_heap_length, memSwap_heap_length]
termination_by j
decreasing_by
  rename_i h
  push_neg at h
  omega

theorem heapDownGo_heap_length (st : MemoryStore) (i n : Nat) :
    (heapDownGo st i n).1.heap.length = st.heap.length := by
  rw [heapDownGo]
  dsimp only
  split
  · split
    · split
      · rw [heapDownGo_heap_length, memSwap_heap_length]
      · rfl
    · split
      · rw [heapDownGo_heap_length, memSwap_heap_length]
      · rfl
  · rfl
termination_by n - i
decreasing_by
  · rename_i hj h2 _
    omega
  · rename_i hj h2 _
    have h21 := h2.1
    omega

theorem memPop_heap_length (st : MemoryStore) :
    (memPop st).1.heap.length = st.heap.length - 1 := by
  simp only [memPop, setSessIdx]
  simp [List.length_take]

theorem heapRemoveGo_heap_length (st : MemoryStore) (i : Nat) :
    (heapRemoveGo st i).1.heap.length = st.heap.length - 1 := by
  rw [heapRemoveGo]
  dsimp only
  split
  · split
    · rw [memPop_heap_length, heapDownGo_heap_length, memSwap_heap_length]
    · rw [memPop_heap_length, heapUpGo_heap_length, heapDownGo_heap_length,
        memSwap_heap_length]
  · rw [memPop_heap_length]

/-- The loop of `memoryStore.GC`; `done k` tells whether the `ctx.Done()`
channel is ready at the `k`-th iteration, `now` stands for `nowFunc()`
(constant across iterations). -/
def memGCLoop (st : MemoryStore) (now : Int) (done : Nat → Bool) (k : Nat) :
    MemoryStore :=
  if done k then st
  else if st.heap.length = 0 then st
  else
    let sess := getSess st (hGet st 0)
    if now < sess.lastAccessedAt + st.lifetime then st
    else memGCLoop (heapRemoveGo st sess.idx.toNat).1 now done (k + 1)
termination_by st.heap.length
decreasing_by
  rename_i h0 _
  rw [heapRemoveGo_heap_length]
  omega

/-- `memoryStore.GC`: run the loop; both return sites of the Go function
return `nil`. -/
def memGC (st : MemoryStore) (now : Int) (done : Nat → Bool) :
    MemoryStore × Option String :=
  (memGCLoop st now done 0, none)

/-! ### Postgres store (`postgres/postgres.go`)

The `sessions` table is modelled as a finite map from the `key` column to
the row's remaining columns; the SQL statements of the store are the
corresponding map operations (`SELECT ... WHERE key = $1` is a lookup,
`INSERT ... ON CONFLICT DO UPDATE` an upsert, `DELETE ... WHERE key = $1` a
key removal, `UPDATE ... WHERE key = $2` a conditional field update,
`DELETE ... WHERE expired_at <= $1` a filter).  Connectivity failures of
the database engine are outside the model; `sql.ErrNoRows` is the `none`
lookup.  The injected codec is a pair `enc`/`dec`; `Bin` is the column
type of `data`. -/

/-- One row of the session table apart from its `key`: the `data` column
(encoded bytes) and the `expired_at` column. -/
structure PgRow where
  bin : GoStr
  expiredAt : Int
deriving DecidableEq

/-- The session table. -/
abbrev PgDB := List (GoStr × PgRow)

/-- `postgresStore.Exist`. -/
def pgExist (db : PgDB) (sid : GoStr) : Bool :=
  (alookup sid db).isSome

/-- `postgresStore.Read`: note the expiry test of the source is
`!s.nowFunc().Before(expiredAt.Add(s.lifetime))`, i.e. the row is discarded
only once `now ≥ expired_at + lifetime`, although `expired_at` was already
written as `save time + lifetime` by `Save`/`Touch`.  A session built from
a found row is `NewBaseSession` followed by `SetData` (which writes only
the `data` field). -/
def pgRead (dec : GoStr → Option Data) (enc : Data → Option GoStr)
    (lifetime now : Int) (db : PgDB) (sid : GoStr) :
    Except String BaseSession :=
  match alookup sid db with
  | some row =>
    if ¬ now < row.expiredAt + lifetime then
      .ok (newBaseSession sid enc)
    else
      match dec row.bin with
      | none => .error "decode"
      | some d => .ok { newBaseSession sid enc with data := d }
  | none => .ok (newBaseSession sid enc)

/-- `postgresStore.Save`: encode first (failure aborts), then upsert the
row with `expired_at = now + lifetime`. -/
def pgSave (lifetime now : Int) (db : PgDB) (sess : BaseSession) :
    Except String PgDB :=
  match sess.encode with
  | none => .error "encode"
  | some bin => .ok (aupsert sess.sid { bin := bin, expiredAt := now + lifetime } db)

/-- `postgresStore.Touch`: `UPDATE ... SET expired_at = now + lifetime WHERE
key = sid`; updating zero rows is not an error. -/
def pgTouch (lifetime now : Int) (db : PgDB) (sid : GoStr) : PgDB :=
  db.map (fun kv => if kv.1 = sid
                    then (kv.1, { kv.2 with expiredAt := now + lifetime })
                    else kv)

/-- `postgresStore.Destroy`: `DELETE ... WHERE key = sid`. -/
def pgDestroy (db : PgDB) (sid : GoStr) : PgDB :=
  aeraseKey sid db

/-- `postgresStore.GC`: `DELETE ... WHERE expired_at <= now`. -/
def pgGC (now : Int) (db : PgDB) : PgDB :=
  db.filter (fun kv => ¬ kv.2.expiredAt ≤ now)

/-- Stand-in for the injected gob codec in concrete examples: round-trips
the one payload those examples store (`"name" ↦ "x"`), like any injected
`Encoder`/`Decoder` pair does on the payloads it serialises. -/
def encDemoKV : Data → Option GoStr := fun d =>
  if d = [(GoVal.vstr [110, 97, 109, 101], GoVal.vstr [120])] then some [1] else some [0]

/-- Decoder matching `encDemoKV`. -/
def decDemoKV : GoStr → Option Data := fun b =>
  if b = [1] then some [(GoVal.vstr [110, 97, 109, 101], GoVal.vstr [120])] else some []

/-! ### Redis store (`redis/redis.go`)

Redis is modelled as a map from full keys (`keyPrefix + sid`) to the
stored bytes with their absolute expiry deadline: `SETEX key value
lifetime` binds the key with deadline `now + lifetime`; `EXPIRE key
lifetime` resets an existing key's deadline and reports `0` (not an
error) for a missing key; the server itself drops a key once its deadline
has passed (`redisStore.GC` is literally `return nil` - recycling is the
server's TTL enforcement).  Client connectivity failures are outside the
model, as with the database backends. -/

/-- One Redis binding: the stored bytes and the key's expiry deadline. -/
structure RedisVal where
  bin : GoStr
  expireAt : Int
deriving DecidableEq

/-- The Redis keyspace. -/
abbrev RedisDB := List (GoStr × RedisVal)

/-- `redisStore.Save`: `SETEX (keyPrefix+sid) binary lifetime`. -/
def redisSave (L now : Int) (db : RedisDB) (pfx : GoStr) (sess : BaseSession) :
    Except String RedisDB :=
  match sess.encode with
  | none => .error "encode"
  | some bin =>
    .ok (aupsert (pfx ++ sess.sid) { bin := bin, expireAt := now + L } db)

/-- `redisStore.Touch`: `EXPIRE (keyPrefix+sid) lifetime` resets an
existing key's deadline to `now + lifetime`; on a missing key `EXPIRE`
reports `0` and `.Err()` is `nil`, so the call is a no-op returning
`nil`. -/
def redisTouch (L now : Int) (db : RedisDB) (pfx sid : GoStr) :
    RedisDB × Option String :=
  match alookup (pfx ++ sid) db with
  | some v => (aupsert (pfx ++ sid) { v with expireAt := now + L } db, none)
  | none => (db, none)

/-- The Redis server's TTL enforcement at time `now`: keys whose expiry
deadline has passed are gone. -/
def redisSweep (now : Int) (db : RedisDB) : RedisDB :=
  db.filter (fun kv => ¬ kv.2.expireAt ≤ now)

/-! ### File store (`file.go`, the copy carried in `file_test.go`)

The session directory is modelled as a map from file paths to file
content plus modification time.  For a fixed root directory,
`filename(sid) = filepath.Join(rootDir, string(sid[0]), string(sid[1]),
sid)` is modelled as the two leading directory bytes prepended to the
identifier; Go string indexing raises a runtime index-out-of-range fault
when the index is past the end, so the path computation has no result
(`none`) for identifiers shorter than two bytes.  `os` failures on files
the store has just seen are outside the model, as with the database
backends.  Expiry reads the file's modification time: a file is live
while `ModTime() + lifetime` is after `now`. -/

/-- One session file: content bytes and modification time. -/
structure FileInfo where
  bin : GoStr
  modTime : Int
deriving DecidableEq

/-- The session directory tree. -/
abbrev FileDB := List (GoStr × FileInfo)

/-- `fileStore.filename`: `filepath.Join(rootDir, string(sid[0]),
string(sid[1]), sid)`; `none` is the index-out-of-range runtime fault Go
raises for identifiers shorter than two bytes. -/
def fileFilename (sid : GoStr) : Option GoStr :=
  match sid with
  | c0 :: c1 :: rest => some (c0 :: c1 :: c0 :: c1 :: rest)
  | _ => none

/-- `fileStore.Touch`: the path is computed first - crashing on an
identifier shorter than two bytes, `Touch` being the one `fileStore`
method without the `minimumSIDLength` guard - then a missing file is a
`nil` no-op and an existing file gets its modification time set to `now`
(`os.Chtimes(filename, now, now)`); `none` is the crash. -/
def fileTouch (now : Int) (fs : FileDB) (sid : GoStr) :
    Option (FileDB × Option String) :=
  match fileFilename sid with
  | none => none
  | some fn =>
    match alookup fn fs with
    | none => some (fs, none)
    | some fi => some (aupsert fn { fi with modTime := now } fs, none)

/-- `fileStore.Exist`: `false` under the `minimumSIDLength` (= 3) guard,
else whether the identifier's file exists. -/
def fileExist (fs : FileDB) (sid : GoStr) : Bool :=
  if sid.length < 3 then false
  else
    match fileFilename sid with
    | some fn => (alookup fn fs).isSome
    | none => false

/-- `fileStore.GC`: walk the session files and remove every file whose
`ModTime() + lifetime` is not after `now` (run to completion, no
cancellation). -/
def fileGC (L now : Int) (fs : FileDB) : FileDB :=
  fs.filter (fun kv => ¬ kv.2.modTime + L ≤ now)

/-! ### Session manager (`manager.go`, current revision)

`Store` is the Go interface consumed by `manager.load`; a backend is a
state type `σ`, a session type `Sess` and the two methods `load` uses. -/

/-- The `Exist`/`Read` capabilities of the `Store` interface. -/
structure GoStore (σ Sess : Type) where
  exist : σ → GoStr → Bool
  read : σ → GoStr → Except String (Sess × σ)

/-- `manager.load(r, sid, idLength)` of the current `manager.go`: an
invalid candidate ID is replaced by a fresh random one and `created` is set;
the (possibly fresh) ID is then read from the store. -/
def managerLoad {σ Sess : Type} (S : GoStore σ Sess)
    (oracle : Nat → Option (Fin 36)) (st : σ) (sid : GoStr) (idLength : Nat) :
    Except String (Sess × Bool × σ) :=
  if isValidSessionID sid idLength = true then
    match S.read st sid with
    | .error e => .error ("read: " ++ e)
    | .ok r => .ok (r.1, false, r.2)
  else
    match randomChars oracle idLength with
    | none => .error "new ID"
    | some fresh =>
      match S.read st fresh with
      | .error e => .error ("read: " ++ e)
      | .ok r => .ok (r.1, true, r.2)

/-- The memory backend seen through the `Store` interface (`Read` always
returns a `nil` error, so it is total). -/
def memGoStore (now : Int) : GoStore MemoryStore Ptr :=
  { exist := fun st sid => memExist st sid
    read := fun st sid =>
      let r := memRead st now sid
      .ok (r.1, r.2.1) }

/-! ### The `startGC` background loop (`manager.go`)

Each loop iteration calls `store.GC` (errors go to `errFunc`) and then
executes `select \x7b case <-stop: ...return; case <-ticker.C: \x7d`.  Per the Go
specification a `select` with several ready communications chooses one of
them uniformly at pseudo-random; this nondeterminism is modelled by a
schedule giving the chosen case of each iteration, constrained to cases
that are ready there. -/

/-- The two cases of the `select` in `startGC`. -/
inductive GCChoice where
  | stop : GCChoice
  | tick : GCChoice
deriving DecidableEq

/-- Which of the two channel operations are ready at a given iteration. -/
structure ChanReady where
  stopReady : Bool
  tickReady : Bool

/-- A schedule is admissible when every chosen case was ready: this is all
the Go specification guarantees about the choice (no priority between
simultaneously ready cases). -/
def schedValid (ready : Nat → ChanReady) (sched : Nat → GCChoice) : Prop :=
  ∀ k, (sched k = .stop → (ready k).stopReady = true) ∧
       (sched k = .tick → (ready k).tickReady = true)

/-- The goroutine of `startGC` is still inside its loop when iteration `k`
starts: every earlier `select` chose the ticker case. -/
def gcLoopRunning (sched : Nat → GCChoice) : Nat → Bool
  | 0 => true
  | k + 1 => gcLoopRunning sched k && !(sched k == GCChoice.stop)

/-- Ticker and a pending (unbuffered) stop send both ready forever. -/
def bothReady : Nat → ChanReady := fun _ => ⟨true, true⟩

/-- The schedule in which the `select` always picks the ticker case. -/
def alwaysTick : Nat → GCChoice := fun _ => .tick

/-! ### Default `WriteIDFunc` (`session.go`)

The response writer is modelled by its list of `Set-Cookie` headers
(`http.SetCookie` appends one); the same cookie is also added to the
request (`r.AddCookie`), which has no effect on the response and is left
out of the model. -/

/-- An `http.Cookie` as built by the default `WriteIDFunc`. -/
structure GoCookie where
  name : GoStr
  value : GoStr
  path : GoStr
  domain : GoStr
  maxAge : Int
  secure : Bool
  httpOnly : Bool
  sameSite : Int
deriving DecidableEq

/-- The cookie-attribute options the default `WriteIDFunc` copies from
`Options.Cookie`. -/
structure CookieOpts where
  name : GoStr
  path : GoStr
  domain : GoStr
  maxAge : Int
  secure : Bool
  httpOnly : Bool
  sameSite : Int

/-- The session cookie the default `WriteIDFunc` builds for `sid`. -/
def mkSessionCookie (o : CookieOpts) (sid : GoStr) : GoCookie :=
  { name := o.name, value := sid, path := o.path, domain := o.domain
    maxAge := o.maxAge, secure := o.secure, httpOnly := o.httpOnly
    sameSite := o.sameSite }

/-- The default `WriteIDFunc` of `session.go`: return at once unless the
session was newly created, otherwise `http.SetCookie` the session cookie. -/
def defaultWriteIDFunc (o : CookieOpts) (resp : List GoCookie) (sid : GoStr)
    (created : Bool) : List GoCookie :=
  if ¬ created = true then resp
  else resp ++ [mkSessionCookie o sid]

/-! ### Store-state projections and invariants -/

/-- Session ID behind a pointer. -/
def sidOf (st : MemoryStore) (p : Ptr) : GoStr := (getSess st p).sid

/-- Last-access time behind a pointer. -/
def lastOf (st : MemoryStore) (p : Ptr) : Int := (getSess st p).lastAccessedAt

/-- Payload behind a pointer. -/
def dataOf (st : MemoryStore) (p : Ptr) : Data := (getSess st p).data

/-- Parent position in the binary heap layout. -/
def parentIdx (j : Nat) : Nat := (j - 1) / 2

/-- Every heap slot holds a pointer into the arena. -/
def PtrValid (st : MemoryStore) : Prop :=
  ∀ k, k < st.heap.length → hGet st k < st.arena.length

/-- Every session's `index` field is its heap position. -/
def PosInv (st : MemoryStore) : Prop :=
  ∀ k, k < st.heap.length → (getSess st (hGet st k)).idx = (k : Int)

/-- The index map is exactly the ID-to-pointer view of the heap. -/
def IndexCorrect (st : MemoryStore) : Prop :=
  (st.index.map Prod.fst).Nodup ∧
  (∀ kv ∈ st.index, kv.2 ∈ st.heap ∧ sidOf st kv.2 = kv.1) ∧
  (∀ p ∈ st.heap, alookup (sidOf st p) st.index = some p)

/-- The min-heap ordering on the first `n` heap slots. -/
def HeapUpTo (st : MemoryStore) (n : Nat) : Prop :=
  ∀ j, j < n → 0 < j → lastAt st (parentIdx j) ≤ lastAt st j

/-- The heap ordering on the first `n` slots, allowing violations at the
pairs whose parent is the sift-down hole `i`, while the hole's parent still
dominates the hole's children. -/
def AlmostHeapAt (st : MemoryStore) (n i : Nat) : Prop :=
  (∀ j, j < n → 0 < j → parentIdx j ≠ i → lastAt st (parentIdx j) ≤ lastAt st j) ∧
  (0 < i → ∀ j, j < n → parentIdx j = i → lastAt st (parentIdx i) ≤ lastAt st j)

/-- Well-formedness of a memory store state: what `newMemoryStore` sets up
and every store operation maintains. -/
def WF (st : MemoryStore) : Prop :=
  PtrValid st ∧ PosInv st ∧ st.heap.Nodup ∧ IndexCorrect st ∧
    HeapUpTo st st.heap.length

/-- The `created` component of a `manager.load` result. -/
def loadCreatedFlag {σ Sess : Type} (r : Except String (Sess × Bool × σ)) :
    Option Bool :=
  match r with
  | .ok x => some x.2.1
  | .error _ => none

/-- `Get` on a `Read` result (`nil` on a read error). -/
def sessGetKV (r : Except String BaseSession) (k : GoVal) : Option GoVal :=
  match r with
  | .ok s => s.get k
  | .error _ => none

/-! ### Generic list lemmas -/

theorem getD_set_same {α : Type} (l : List α) (i : Nat) (x d : α)
    (h : i < l.length) : (l.set i x).getD i d = x := by
  rw [List.getD_eq_getElem?_getD, List.getElem?_set_eq_of_lt x h]
  rfl

theorem getD_set_other {α : Type} (l : List α) {i j : Nat} (x d : α)
    (h : i ≠ j) : (l.set i x).getD j d = l.getD j d := by
  rw [List.getD_eq_getElem?_getD, List.getElem?_set_ne h,
    ← List.getD_eq_getElem?_getD]

theorem getD_concat_self {α : Type} (l : List α) (x d : α) :
    (l ++ [x]).getD l.length d = x := by
  rw [List.getD_eq_getElem?_getD, List.getElem?_concat_length]
  rfl

theorem getD_take_lt {α : Type} (l : List α) {n k : Nat} (d : α) (h : k < n) :
    (l.take n).getD k d = l.getD k d := by
  rw [List.getD_eq_getElem?_getD, List.getElem?_take_of_lt h,
    ← List.getD_eq_getElem?_getD]

theorem mem_iff_getD {α : Type} (l : List α) (q d : α) :
    q ∈ l ↔ ∃ k, k < l.length ∧ l.getD k d = q := by
  rw [List.mem_iff_getElem]
  constructor
  · rintro ⟨n, h, he⟩
    exact ⟨n, h, by rw [List.getD_eq_getElem _ _ h]; exact he⟩
  · rintro ⟨n, h, he⟩
    exact ⟨n, h, by rw [List.getD_eq_getElem _ _ h] at he; exact he⟩

theorem nodup_iff_getD {α : Type} (l : List α) (d : α) :
    l.Nodup ↔ ∀ k1 k2, k1 < l.length → k2 < l.length → k1 ≠ k2 →
      l.getD k1 d ≠ l.getD k2 d := by
  rw [List.nodup_iff_injective_get]
  constructor
  · intro hinj k1 k2 h1 h2 hne he
    rw [List.getD_eq_getElem _ _ h1, List.getD_eq_getElem _ _ h2] at he
    have : (⟨k1, h1⟩ : Fin l.length) = ⟨k2, h2⟩ := hinj he
    exact hne (congrArg Fin.val this)
  · intro h x y hxy
    by_contra hne
    have hv : x.val ≠ y.val := fun hv => hne (Fin.ext hv)
    apply h x.val y.val x.isLt y.isLt hv
    rw [List.getD_eq_getElem _ _ x.isLt, List.getD_eq_getElem _ _ y.isLt]
    simpa [List.get_eq_getElem] using hxy

/-! ### Effect of the primitive state edits -/

theorem getSess_setSessIdx (st : MemoryStore) (p : Ptr) (v : Int) (q : Ptr) :
    getSess (setSessIdx st p v) q =
      if q = p ∧ p < st.arena.length
      then { getSess st p with idx := v }
      else getSess st q := by
  by_cases hq : q = p
  · subst hq
    by_cases hp : q < st.arena.length
    · simp only [hp, and_true, if_pos rfl, getSess, setSessIdx]
      rw [getD_set_same _ _ _ _ hp]
      rfl
    · simp only [hp, and_false, if_false, getSess, setSessIdx]
      rw [List.set_eq_of_length_le (Nat.le_of_not_lt hp)]
  · simp only [hq, false_and, if_false, getSess, setSessIdx]
    exact getD_set_other _ _ _ (fun h => hq h.symm)

theorem getSess_setSessLast (st : MemoryStore) (p : Ptr) (t : Int) (q : Ptr) :
    getSess (setSessLast st p t) q =
      if q = p ∧ p < st.arena.length
      then { getSess st p with lastAccessedAt := t }
      else getSess st q := by
  by_cases hq : q = p
  · subst hq
    by_cases hp : q < st.arena.length
    · simp only [hp, and_true, if_pos rfl, getSess, setSessLast]
      rw [getD_set_same _ _ _ _ hp]
      rfl
    · simp only [hp, and_false, if_false, getSess, setSessLast]
      rw [List.set_eq_of_length_le (Nat.le_of_not_lt hp)]
  · simp only [hq, false_and, if_false, getSess, setSessLast]
    exact getD_set_other _ _ _ (fun h => hq h.symm)

/-- `st'` differs from `st` only in heap arrangement and `index` fields of
sessions: everything the payload-level claims observe is unchanged. -/
structure IdxOnly (st st' : MemoryStore) : Prop where
  lt : st'.lifetime = st.lifetime
  al : st'.arena.length = st.arena.length
  sd : ∀ p, sidOf st' p = sidOf st p
  dt : ∀ p, dataOf st' p = dataOf st p
  la : ∀ p, lastOf st' p = lastOf st p
  im : st'.index = st.index

theorem idxOnly_refl (st : MemoryStore) : IdxOnly st st :=
  ⟨rfl, rfl, fun _ => rfl, fun _ => rfl, fun _ => rfl, rfl⟩

theorem idxOnly_trans {s1 s2 s3 : MemoryStore} (a : IdxOnly s1 s2)
    (b : IdxOnly s2 s3) : IdxOnly s1 s3 :=
  ⟨b.lt.trans a.lt, b.al.trans a.al,
   fun p => (b.sd p).trans (a.sd p), fun p => (b.dt p).trans (a.dt p),
   fun p => (b.la p).trans (a.la p), b.im.trans a.im⟩

theorem idxOnly_setSessIdx (st : MemoryStore) (p : Ptr) (v : Int) :
    IdxOnly st (setSessIdx st p v) := by
  refine ⟨rfl, by simp [setSessIdx], ?_, ?_, ?_, rfl⟩ <;>
    intro q <;>
    simp only [sidOf, dataOf, lastOf, getSess_setSessIdx] <;>
    split <;>
    first
      | rfl
      | (rename_i h; rw [h.1])

theorem idxOnly_memSwap (st : MemoryStore) (i j : Nat) :
    IdxOnly st (memSwap st i j) := by
  unfold memSwap
  dsimp only
  have h1 : IdxOnly st
      { st with heap := (st.heap.set i (hGet st j)).set j (hGet st i) } :=
    ⟨rfl, rfl, fun _ => rfl, fun _ => rfl, fun _ => rfl, rfl⟩
  exact idxOnly_trans (idxOnly_trans h1 (idxOnly_setSessIdx _ _ _))
    (idxOnly_setSessIdx _ _ _)

theorem idxOnly_heapUpGo (st : MemoryStore) (j : Nat) :
    IdxOnly st (heapUpGo st j) := by
  rw [heapUpGo]
  split
  · exact idxOnly_refl st
  · exact idxOnly_trans (idxOnly_memSwap _ _ _) (idxOnly_heapUpGo _ _)
termination_by j
decreasing_by
  rename_i h
  push_neg at h
  omega

theorem idxOnly_heapDownGo (st : MemoryStore) (i n : Nat) :
    IdxOnly st (heapDownGo st i n).1 := by
  rw [heapDownGo]
  dsimp only
  split
  · split
    · split
      · exact idxOnly_trans (idxOnly_memSwap _ _ _) (idxOnly_heapDownGo _ _ _)
      · exact idxOnly_refl st
    · split
      · exact idxOnly_trans (idxOnly_memSwap _ _ _) (idxOnly_heapDownGo _ _ _)
      · exact idxOnly_refl st
  · exact idxOnly_refl st
termination_by n - i
decreasing_by
  · rename_i hj h2 _
    omega
  · rename_i hj h2 _
    have h21 := h2.1
    omega

theorem idxOnly_heapFixGo (st : MemoryStore) (i : Nat) :
    IdxOnly st (heapFixGo st i) := by
  unfold heapFixGo
  dsimp only
  split
  · exact idxOnly_heapDownGo _ _ _
  · exact idxOnly_trans (idxOnly_heapDownGo _ _ _) (idxOnly_heapUpGo _ _)

theorem lastAt_eq_lastOf (st : MemoryStore) (k : Nat) :
    lastAt st k = lastOf st (hGet st k) := rfl

theorem hGet_memSwap (st : MemoryStore) {i j : Nat} (hi : i < st.heap.length)
    (hj : j < st.heap.length) (k : Nat) :
    hGet (memSwap st i j) k =
      if k = j then hGet st i else if k = i then hGet st j else hGet st k := by
  unfold memSwap hGet setSessIdx
  dsimp only
  by_cases hkj : k = j
  · subst hkj
    rw [if_pos rfl]
    exact getD_set_same _ _ _ _ (by rw [List.length_set]; exact hj)
  · rw [if_neg hkj, getD_set_other _ _ _ (fun h => hkj h.symm)]
    by_cases hki : k = i
    · subst hki
      rw [if_pos rfl]
      exact getD_set_same _ _ _ _ hi
    · rw [if_neg hki]
      exact getD_set_other _ _ _ (fun h => hki h.symm)

theorem lastAt_memSwap (st : MemoryStore) {i j : Nat} (hi : i < st.heap.length)
    (hj : j < st.heap.length) (k : Nat) :
    lastAt (memSwap st i j) k =
      lastAt st (if k = j then i else if k = i then j else k) := by
  rw [lastAt_eq_lastOf, (idxOnly_memSwap st i j).la, hGet_memSwap st hi hj k]
  split
  · rfl
  · split <;> rfl

theorem memSwap_heap_perm (st : MemoryStore) {i j : Nat}
    (hi : i < st.heap.length) (hj : j < st.heap.length) (hij : i ≠ j) :
    (memSwap st i j).heap.Perm st.heap := by
  rw [List.perm_iff_count]
  intro c
  unfold memSwap setSessIdx
  dsimp only
  have hj' : j < (st.heap.set i (hGet st j)).length := by
    rw [List.length_set]; exact hj
  rw [List.count_set _ _ _ _ hj', List.count_set _ _ _ _ hi]
  have he1 : (st.heap.set i (hGet st j))[j] = st.heap[j] :=
    List.getElem_set_ne hij _
  have he2 : st.heap[i] = hGet st i := (List.getD_eq_getElem _ _ hi).symm
  have he3 : st.heap[j] = hGet st j := (List.getD_eq_getElem _ _ hj).symm
  rw [he1, he2, he3]
  have hmi : hGet st i ∈ st.heap := by
    rw [mem_iff_getD st.heap _ 0]
    exact ⟨i, hi, rfl⟩
  have hmj : hGet st j ∈ st.heap := by
    rw [mem_iff_getD st.heap _ 0]
    exact ⟨j, hj, rfl⟩
  by_cases hic : hGet st i = c <;> by_cases hjc : hGet st j = c <;>
    simp [hic, hjc] <;>
    first
      | omega
      | (have hcnt := List.count_pos_iff_mem.mpr (hic ▸ hmi); omega)
      | (have hcnt := List.count_pos_iff_mem.mpr (hjc ▸ hmj); omega)

/-- Pointer validity, position correctness and heap-slot distinctness:
the part of well-formedness every heap operation preserves step by step. -/
def WFbase (st : MemoryStore) : Prop :=
  PtrValid st ∧ PosInv st ∧ st.heap.Nodup

theorem nodup_hGet_ne {st : MemoryStore} (h : st.heap.Nodup) {k1 k2 : Nat}
    (h1 : k1 < st.heap.length) (h2 : k2 < st.heap.length) (hne : k1 ≠ k2) :
    hGet st k1 ≠ hGet st k2 :=
  (nodup_iff_getD st.heap 0).mp h k1 k2 h1 h2 hne

theorem memSwap_WFbase {st : MemoryStore} {i j : Nat} (hi : i < st.heap.length)
    (hj : j < st.heap.length) (hij : i ≠ j) (h : WFbase st) :
    WFbase (memSwap st i j) := by
  obtain ⟨hptr, hpos, hnd⟩ := h
  have hlen : (memSwap st i j).heap.length = st.heap.length :=
    memSwap_heap_length st i j
  have hal : (memSwap st i j).arena.length = st.arena.length :=
    (idxOnly_memSwap st i j).al
  refine ⟨?_, ?_, ?_⟩
  · intro k hk
    rw [hlen] at hk
    rw [hGet_memSwap st hi hj k, hal]
    split
    · exact hptr i hi
    · split
      · exact hptr j hj
      · exact hptr k hk
  · intro k hk
    rw [hlen] at hk
    rw [hGet_memSwap st hi hj k]
    have hpi : hGet st i < st.arena.length := hptr i hi
    have hpj : hGet st j < st.arena.length := hptr j hj
    have hpij : hGet st i ≠ hGet st j := nodup_hGet_ne hnd hi hj hij
    by_cases hkj : k = j
    · rw [if_pos hkj, hkj]
      show (getSess (setSessIdx (setSessIdx _ (hGet st j) (i : Int))
        (hGet st i) (j : Int)) (hGet st i)).idx = ((j : Nat) : Int)
      rw [getSess_setSessIdx, if_pos ⟨rfl, by simpa [setSessIdx] using hpi⟩]
    · rw [if_neg hkj]
      by_cases hki : k = i
      · rw [if_pos hki, hki]
        show (getSess (setSessIdx (setSessIdx _ (hGet st j) (i : Int))
          (hGet st i) (j : Int)) (hGet st j)).idx = ((i : Nat) : Int)
        rw [getSess_setSessIdx, if_neg (fun hc => hpij (hc.1.symm)),
          getSess_setSessIdx, if_pos ⟨rfl, hpj⟩]
      · rw [if_neg hki]
        have hqi : hGet st k ≠ hGet st i := nodup_hGet_ne hnd hk hi hki
        have hqj : hGet st k ≠ hGet st j := nodup_hGet_ne hnd hk hj hkj
        show (getSess (setSessIdx (setSessIdx _ (hGet st j) (i : Int))
          (hGet st i) (j : Int)) (hGet st k)).idx = _
        rw [getSess_setSessIdx, if_neg (fun hc => hqi hc.1),
          getSess_setSessIdx, if_neg (fun hc => hqj hc.1)]
        exact hpos k hk
  · exact (memSwap_heap_perm st hi hj hij).nodup_iff.mpr hnd

theorem heapUpGo_zero (st : MemoryStore) : heapUpGo st 0 = st := by
  rw [heapUpGo]
  norm_num

theorem heapDownGo_heap_perm (st : MemoryStore) (i n : Nat)
    (hn : n ≤ st.heap.length) : (heapDownGo st i n).1.heap.Perm st.heap := by
  rw [heapDownGo]
  dsimp only
  split
  · split
    · split
      · exact (heapDownGo_heap_perm _ _ n
            (by rw [memSwap_heap_length]; exact hn)).trans
          (memSwap_heap_perm st (by omega) (by omega) (by omega))
      · exact List.Perm.refl _
    · split
      · exact (heapDownGo_heap_perm _ _ n
            (by rw [memSwap_heap_length]; exact hn)).trans
          (memSwap_heap_perm st (by omega) (by omega) (by omega))
      · exact List.Perm.refl _
  · exact List.Perm.refl _
termination_by n - i
decreasing_by
  all_goals omega

theorem heapDownGo_hGet_ge (st : MemoryStore) (i n : Nat)
    (hn : n ≤ st.heap.length) (k : Nat) (hk : n ≤ k) :
    hGet (heapDownGo st i n).1 k = hGet st k := by
  rw [heapDownGo]
  dsimp only
  split
  · split
    · split
      · rw [heapDownGo_hGet_ge _ _ n (by rw [memSwap_heap_length]; exact hn) k hk,
          hGet_memSwap st (by omega) (by omega) k, if_neg (by omega),
          if_neg (by omega)]
      · rfl
    · split
      · rw [heapDownGo_hGet_ge _ _ n (by rw [memSwap_heap_length]; exact hn) k hk,
          hGet_memSwap st (by omega) (by omega) k, if_neg (by omega),
          if_neg (by omega)]
      · rfl
  · rfl
termination_by n - i
decreasing_by
  all_goals omega

theorem heapDownGo_WFbase (st : MemoryStore) (i n : Nat)
    (hn : n ≤ st.heap.length) (h : WFbase st) :
    WFbase (heapDownGo st i n).1 := by
  rw [heapDownGo]
  dsimp only
  split
  · split
    · split
      · exact heapDownGo_WFbase _ _ n (by rw [memSwap_heap_length]; exact hn)
          (memSwap_WFbase (by omega) (by omega) (by omega) h)
      · exact h
    · split
      · exact heapDownGo_WFbase _ _ n (by rw [memSwap_heap_length]; exact hn)
          (memSwap_WFbase (by omega) (by omega) (by omega) h)
      · exact h
  · exact h
termination_by n - i
decreasing_by
  all_goals omega

theorem almostHeap_to_heapUpTo {st : MemoryStore} {n i : Nat}
    (h : AlmostHeapAt st n i)
    (hchild : ∀ c, c < n → parentIdx c = i → lastAt st i ≤ lastAt st c) :
    HeapUpTo st n := by
  intro j hj hj0
  by_cases hp : parentIdx j = i
  · rw [hp]
    exact hchild j hj hp
  · exact h.1 j hj hj0 hp

theorem almostHeap_swap_step {st : MemoryStore} {n i j : Nat}
    (hn : n ≤ st.heap.length)
    (hij1 : j = 2 * i + 1 ∨ j = 2 * i + 2) (hjn : j < n)
    (hmin : ∀ c, c < n → parentIdx c = i → c ≠ j → lastAt st j ≤ lastAt st c)
    (hless : lastAt st j < lastAt st i)
    (h : AlmostHeapAt st n i) :
    AlmostHeapAt (memSwap st i j) n j := by
  have hj1 : 1 ≤ j := by rcases hij1 with h1 | h1 <;> omega
  have hij : i < j := by rcases hij1 with h1 | h1 <;> omega
  have hi_len : i < st.heap.length := by omega
  have hj_len : j < st.heap.length := by omega
  have hpar : parentIdx j = i := by
    unfold parentIdx
    rcases hij1 with h1 | h1 <;> omega
  have key := lastAt_memSwap st hi_len hj_len
  constructor
  · intro c hc hc0 hpc
    rw [key (parentIdx c), key c]
    by_cases hcj : c = j
    · subst hcj
      rw [if_pos rfl, if_neg (by omega), if_pos hpar]
      exact hless.le
    · by_cases hci : c = i
      · subst hci
        have hpar_lt : parentIdx c < c := by unfold parentIdx; omega
        rw [if_neg hcj, if_pos rfl, if_neg (by omega), if_neg (by omega)]
        exact h.2 hc0 j hjn hpar
      · rw [if_neg hcj, if_neg hci]
        by_cases hpci : parentIdx c = i
        · rw [if_neg (by omega), if_pos hpci]
          exact hmin c hc hpci hcj
        · rw [if_neg hpc, if_neg hpci]
          exact h.1 c hc hc0 hpci
  · intro hj0 c hc hpc
    have hc_big : 2 * j + 1 ≤ c := by
      unfold parentIdx at hpc
      omega
    rw [key (parentIdx j), key c, hpar, if_neg (by omega), if_pos rfl,
      if_neg (by omega), if_neg (by omega)]
    have hc0 : 0 < c := by omega
    have hpci : parentIdx c ≠ i := by omega
    have hstep := h.1 c hc hc0 hpci
    rwa [hpc] at hstep

theorem heapDownGo_heapUpTo (st : MemoryStore) (i n : Nat)
    (hn : n ≤ st.heap.length) (h : AlmostHeapAt st n i) :
    HeapUpTo (heapDownGo st i n).1 n := by
  rw [heapDownGo]
  dsimp only
  split
  · rename_i h1
    split
    · rename_i h2
      have h22 := h2.2
      simp only [memLess, decide_eq_true_eq] at h22
      split
      · rename_i h3
        simp only [memLess, decide_eq_true_eq] at h3
        apply heapDownGo_heapUpTo _ _ n (by rw [memSwap_heap_length]; exact hn)
        apply almostHeap_swap_step hn (Or.inr rfl) h2.1 ?_ h3 h
        intro c hc hpc hcj
        have hcase : c = 2 * i + 1 ∨ (c = 0 ∧ i = 0) := by
          unfold parentIdx at hpc
          omega
        rcases hcase with hc1 | ⟨hc0, hi0⟩
        · rw [hc1]
          exact h22.le
        · subst hi0
          rw [hc0]
          exact h3.le
      · rename_i h3
        simp only [memLess, decide_eq_true_eq, not_lt] at h3
        apply almostHeap_to_heapUpTo h
        intro c hc hpc
        have hcase : c = 2 * i + 1 ∨ c = 2 * i + 2 ∨ (c = 0 ∧ i = 0) := by
          unfold parentIdx at hpc
          omega
        rcases hcase with hc1 | hc2 | ⟨hc0, hi0⟩
        · rw [hc1]
          exact le_trans h3 h22.le
        · rw [hc2]
          exact h3
        · subst hi0
          rw [hc0]
    · rename_i h2
      split
      · rename_i h3
        simp only [memLess, decide_eq_true_eq] at h3
        apply heapDownGo_heapUpTo _ _ n (by rw [memSwap_heap_length]; exact hn)
        apply almostHeap_swap_step hn (Or.inl rfl) h1 ?_ h3 h
        intro c hc hpc hcj
        have hcase : (c = 2 * i + 2 ∧ c < n) ∨ (c = 0 ∧ i = 0) := by
          unfold parentIdx at hpc
          omega
        rcases hcase with ⟨hc2, hcn⟩ | ⟨hc0, hi0⟩
        · have hnl : ¬ lastAt st (2 * i + 2) < lastAt st (2 * i + 1) := by
            intro hlt
            exact h2 ⟨by omega, by simpa [memLess] using hlt⟩
          rw [hc2]
          exact not_lt.mp hnl
        · subst hi0
          rw [hc0]
          exact h3.le
      · rename_i h3
        simp only [memLess, decide_eq_true_eq, not_lt] at h3
        apply almostHeap_to_heapUpTo h
        intro c hc hpc
        have hcase : c = 2 * i + 1 ∨ (c = 2 * i + 2 ∧ c < n) ∨ (c = 0 ∧ i = 0) := by
          unfold parentIdx at hpc
          omega
        rcases hcase with hc1 | ⟨hc2, hcn⟩ | ⟨hc0, hi0⟩
        · rw [hc1]
          exact h3
        · have hnl : ¬ lastAt st (2 * i + 2) < lastAt st (2 * i + 1) := by
            intro hlt
            exact h2 ⟨by omega, by simpa [memLess] using hlt⟩
          rw [hc2]
          exact le_trans h3 (not_lt.mp hnl)
        · subst hi0
          rw [hc0]
  · rename_i h1
    apply almostHeap_to_heapUpTo h
    intro c hc hpc
    have hcase : c = i := by
      unfold parentIdx at hpc
      omega
    rw [hcase]
termination_by n - i
decreasing_by
  all_goals omega

theorem heapUpTo_root_min {st : MemoryStore} {n : Nat} (h : HeapUpTo st n) :
    ∀ i, i < n → lastAt st 0 ≤ lastAt st i := by
  intro i
  induction i using Nat.strong_induction_on with
  | _ i ih =>
    intro hi
    cases Nat.eq_zero_or_pos i with
    | inl h0 => exact h0 ▸ le_refl _
    | inr hpos =>
      have hp : parentIdx i < i := by unfold parentIdx; omega
      exact le_trans (ih (parentIdx i) hp (lt_trans hp hi)) (h i hi hpos)

theorem aeraseKey_sublist {α β : Type} [DecidableEq α] (k : α)
    (l : List (α × β)) : (aeraseKey k l).Sublist l := by
  induction l with
  | nil => exact List.Sublist.refl _
  | cons kv t ih =>
    by_cases hk : kv.1 = k
    · simp only [aeraseKey, if_pos hk]
      exact ih.cons _
    · simp only [aeraseKey, if_neg hk]
      exact ih.cons₂ _

theorem mem_aeraseKey {α β : Type} [DecidableEq α] (k : α) (kv : α × β)
    (l : List (α × β)) : kv ∈ aeraseKey k l ↔ kv ∈ l ∧ kv.1 ≠ k := by
  induction l with
  | nil => simp [aeraseKey]
  | cons hd t ih =>
    by_cases hk : hd.1 = k
    · simp only [aeraseKey, if_pos hk, ih, List.mem_cons]
      constructor
      · exact fun ⟨a, b⟩ => ⟨Or.inr a, b⟩
      · rintro ⟨ha | ha, hb⟩
        · exact absurd (ha ▸ hk) hb
        · exact ⟨ha, hb⟩
    · simp only [aeraseKey, if_neg hk, List.mem_cons, ih]
      constructor
      · rintro (ha | ⟨ha, hb⟩)
        · exact ⟨Or.inl ha, ha ▸ hk⟩
        · exact ⟨Or.inr ha, hb⟩
      · rintro ⟨ha | ha, hb⟩
        · exact Or.inl ha
        · exact Or.inr ⟨ha, hb⟩

theorem indexCorrect_of_idxOnly {st st' : MemoryStore} (hio : IdxOnly st st')
    (hperm : st'.heap.Perm st.heap) (h : IndexCorrect st) : IndexCorrect st' := by
  obtain ⟨hk, hv, hl⟩ := h
  refine ⟨hio.im ▸ hk, ?_, ?_⟩
  · intro kv hkv
    rw [hio.im] at hkv
    obtain ⟨hm, hs⟩ := hv kv hkv
    exact ⟨hperm.mem_iff.mpr hm, (hio.sd kv.2).trans hs⟩
  · intro p hp
    rw [hio.im, hio.sd]
    exact hl p (hperm.mem_iff.mp hp)

theorem memPop_heap (st : MemoryStore) :
    (memPop st).1.heap = st.heap.take (st.heap.length - 1) := rfl

theorem memPop_index (st : MemoryStore) :
    (memPop st).1.index =
      aeraseKey (sidOf st (hGet st (st.heap.length - 1))) st.index := by
  show aeraseKey (getSess (setSessIdx st _ _) _).sid st.index = _
  rw [show (getSess (setSessIdx st (hGet st (st.heap.length - 1)) (-1))
      (hGet st (st.heap.length - 1))).sid
    = sidOf st (hGet st (st.heap.length - 1)) from
      (idxOnly_setSessIdx st _ _).sd _]

theorem memPop_core (st : MemoryStore) :
    (memPop st).1.lifetime = st.lifetime ∧
    (memPop st).1.arena.length = st.arena.length ∧
    (∀ p, sidOf (memPop st).1 p = sidOf st p) ∧
    (∀ p, dataOf (memPop st).1 p = dataOf st p) ∧
    (∀ p, lastOf (memPop st).1 p = lastOf st p) := by
  have hio := idxOnly_setSessIdx st (hGet st (st.heap.length - 1)) (-1)
  exact ⟨hio.lt, hio.al, hio.sd, hio.dt, hio.la⟩

theorem memPop_mem {st : MemoryStore} (hnd : st.heap.Nodup)
    (hne : st.heap.length ≠ 0) (q : Ptr) :
    q ∈ (memPop st).1.heap ↔
      q ∈ st.heap ∧ q ≠ hGet st (st.heap.length - 1) := by
  rw [memPop_heap]
  constructor
  · intro h
    have hsub : q ∈ st.heap := (List.take_sublist _ _).mem h
    refine ⟨hsub, ?_⟩
    intro hq
    rw [mem_iff_getD _ _ 0] at h
    obtain ⟨k, hk, hkq⟩ := h
    rw [List.length_take] at hk
    have hk1 : k < st.heap.length - 1 := lt_of_lt_of_le hk (min_le_left _ _)
    rw [getD_take_lt _ _ hk1] at hkq
    exact @nodup_hGet_ne st hnd k (st.heap.length - 1) (by omega) (by omega)
      (by omega) (hkq.trans hq)
  · rintro ⟨hm, hq⟩
    rw [mem_iff_getD _ _ 0] at hm
    obtain ⟨k, hk, hkq⟩ := hm
    have hk' : k ≠ st.heap.length - 1 := by
      intro hc
      exact hq ((hc ▸ hkq).symm)
    rw [mem_iff_getD _ _ 0]
    refine ⟨k, ?_, ?_⟩
    · rw [List.length_take]
      omega
    · rw [getD_take_lt _ _ (by omega)]
      exact hkq

theorem memPop_WFbase {st : MemoryStore} (h : WFbase st)
    (hne : st.heap.length ≠ 0) : WFbase (memPop st).1 := by
  obtain ⟨hptr, hpos, hnd⟩ := h
  have hlen : (memPop st).1.heap.length = st.heap.length - 1 :=
    memPop_heap_length st
  have hal := (memPop_core st).2.1
  refine ⟨?_, ?_, ?_⟩
  · intro k hk
    rw [hlen] at hk
    show (memPop st).1.heap.getD k 0 < _
    rw [memPop_heap, getD_take_lt _ _ (by omega), hal]
    exact hptr k (by omega)
  · intro k hk
    rw [hlen] at hk
    have hg : hGet (memPop st).1 k = hGet st k := by
      show (memPop st).1.heap.getD k 0 = _
      rw [memPop_heap, getD_take_lt _ _ (by omega)]
      rfl
    rw [hg]
    have hne2 : hGet st k ≠ hGet st (st.heap.length - 1) :=
      nodup_hGet_ne hnd (by omega) (by omega) (by omega)
    show (getSess (setSessIdx st _ _) (hGet st k)).idx = _
    rw [getSess_setSessIdx, if_neg (fun hc => hne2 hc.1)]
    exact hpos k (by omega)
  · rw [memPop_heap]
    exact hnd.sublist (List.take_sublist _ _)

theorem memPop_indexCorrect {st : MemoryStore} (hbase : WFbase st)
    (hic : IndexCorrect st) (hne : st.heap.length ≠ 0) :
    IndexCorrect (memPop st).1 := by
  obtain ⟨hptr, hpos, hnd⟩ := hbase
  obtain ⟨hk, hv, hl⟩ := hic
  have hplast : hGet st (st.heap.length - 1) ∈ st.heap := by
    rw [mem_iff_getD _ _ 0]
    exact ⟨st.heap.length - 1, by omega, rfl⟩
  refine ⟨?_, ?_, ?_⟩
  · rw [memPop_index]
    exact hk.sublist (List.Sublist.map _ (aeraseKey_sublist _ _))
  · intro kv hkv
    rw [memPop_index, mem_aeraseKey] at hkv
    obtain ⟨hm, hs⟩ := hkv
    obtain ⟨hm2, hs2⟩ := hv kv hm
    have hq : kv.2 ≠ hGet st (st.heap.length - 1) := by
      intro hc
      exact hs (hs2.symm.trans (by rw [hc]))
    rw [memPop_mem hnd hne, (memPop_core st).2.2.1]
    exact ⟨⟨hm2, hq⟩, hs2⟩
  · intro p hp
    rw [memPop_mem hnd hne] at hp
    obtain ⟨hm, hq⟩ := hp
    rw [memPop_index, (memPop_core st).2.2.1]
    have hsne : sidOf st p ≠ sidOf st (hGet st (st.heap.length - 1)) := by
      intro hc
      have h1 := hl p hm
      have h2 := hl _ hplast
      rw [hc] at h1
      rw [h1] at h2
      exact hq (Option.some.inj h2)
    rw [alookup_aeraseKey_ne _ _ _ (fun hc => hsne hc.symm)]
    exact hl p hm

theorem removeRoot_spec (st : MemoryStore) (hWF : WF st)
    (hne : st.heap.length ≠ 0) :
    WF (heapRemoveGo st 0).1 ∧
    (heapRemoveGo st 0).1.heap.length = st.heap.length - 1 ∧
    (∀ q, q ∈ (heapRemoveGo st 0).1.heap ↔ q ∈ st.heap ∧ q ≠ hGet st 0) ∧
    (heapRemoveGo st 0).1.lifetime = st.lifetime ∧
    (heapRemoveGo st 0).1.arena.length = st.arena.length ∧
    (∀ p, sidOf (heapRemoveGo st 0).1 p = sidOf st p) ∧
    (∀ p, dataOf (heapRemoveGo st 0).1 p = dataOf st p) ∧
    (∀ p, lastOf (heapRemoveGo st 0).1 p = lastOf st p) := by
  obtain ⟨hptr, hpos, hnd, hic, hheap⟩ := hWF
  have hup : ∀ s : MemoryStore × Nat,
      (if s.2 > 0 then s.1 else heapUpGo s.1 0) = s.1 := by
    intro s
    split
    · rfl
    · exact heapUpGo_zero _
  rw [heapRemoveGo]
  dsimp only
  split
  · rename_i hn0
    rw [hup]
    have h0len : 0 < st.heap.length := by omega
    have hn1len : st.heap.length - 1 < st.heap.length := by omega
    have h0n1 : (0 : Nat) ≠ st.heap.length - 1 := by omega
    have hswb : WFbase (memSwap st 0 (st.heap.length - 1)) :=
      memSwap_WFbase h0len hn1len h0n1 ⟨hptr, hpos, hnd⟩
    have hswp : (memSwap st 0 (st.heap.length - 1)).heap.Perm st.heap :=
      memSwap_heap_perm st h0len hn1len h0n1
    have hswio : IdxOnly st (memSwap st 0 (st.heap.length - 1)) :=
      idxOnly_memSwap st 0 (st.heap.length - 1)
    have hswlen := memSwap_heap_length st 0 (st.heap.length - 1)
    have hnle : st.heap.length - 1 ≤ (memSwap st 0 (st.heap.length - 1)).heap.length := by
      omega
    have hah : AlmostHeapAt (memSwap st 0 (st.heap.length - 1))
        (st.heap.length - 1) 0 := by
      constructor
      · intro j hj hj0 hpj
        have hpj_lt : parentIdx j < j := by unfold parentIdx; omega
        rw [lastAt_memSwap st h0len hn1len, lastAt_memSwap st h0len hn1len,
          if_neg (by omega), if_neg (by omega), if_neg (by omega),
          if_neg (by omega)]
        exact hheap j (by omega) hj0
      · intro h0
        exact absurd h0 (lt_irrefl 0)
    have hdu : HeapUpTo (heapDownGo (memSwap st 0 (st.heap.length - 1)) 0
        (st.heap.length - 1)).1 (st.heap.length - 1) :=
      heapDownGo_heapUpTo _ 0 _ hnle hah
    have hdb : WFbase (heapDownGo (memSwap st 0 (st.heap.length - 1)) 0
        (st.heap.length - 1)).1 :=
      heapDownGo_WFbase _ 0 _ hnle hswb
    have hdp : (heapDownGo (memSwap st 0 (st.heap.length - 1)) 0
        (st.heap.length - 1)).1.heap.Perm st.heap :=
      (heapDownGo_heap_perm _ 0 _ hnle).trans hswp
    have hdio : IdxOnly st (heapDownGo (memSwap st 0 (st.heap.length - 1)) 0
        (st.heap.length - 1)).1 :=
      idxOnly_trans hswio (idxOnly_heapDownGo _ 0 _)
    have hdlen : (heapDownGo (memSwap st 0 (st.heap.length - 1)) 0
        (st.heap.length - 1)).1.heap.length = st.heap.length := by
      rw [heapDownGo_heap_length, hswlen]
    have hdlast : hGet (heapDownGo (memSwap st 0 (st.heap.length - 1)) 0
        (st.heap.length - 1)).1 (st.heap.length - 1) = hGet st 0 := by
      rw [heapDownGo_hGet_ge _ 0 _ hnle _ (le_refl _),
        hGet_memSwap st h0len hn1len, if_pos rfl]
    have hdic : IndexCorrect (heapDownGo (memSwap st 0 (st.heap.length - 1)) 0
        (st.heap.length - 1)).1 :=
      indexCorrect_of_idxOnly hdio hdp hic
    have hdne : (heapDownGo (memSwap st 0 (st.heap.length - 1)) 0
        (st.heap.length - 1)).1.heap.length ≠ 0 := by
      rw [hdlen]; exact hne
    have hpb := memPop_WFbase hdb hdne
    have hpic := memPop_indexCorrect hdb hdic hdne
    have hplen := memPop_heap_length (heapDownGo (memSwap st 0
      (st.heap.length - 1)) 0 (st.heap.length - 1)).1
    have hpcore := memPop_core (heapDownGo (memSwap st 0
      (st.heap.length - 1)) 0 (st.heap.length - 1)).1
    refine ⟨⟨hpb.1, hpb.2.1, hpb.2.2, hpic, ?_⟩, ?_, ?_, ?_, ?_, ?_, ?_, ?_⟩
    · -- HeapUpTo of the popped state at its own length
      intro j hj hj0
      rw [hplen, hdlen] at hj
      have hpar_lt : parentIdx j < j := by unfold parentIdx; omega
      have hg1 : hGet (memPop (heapDownGo (memSwap st 0 (st.heap.length - 1)) 0
          (st.heap.length - 1)).1).1 j = hGet (heapDownGo (memSwap st 0
          (st.heap.length - 1)) 0 (st.heap.length - 1)).1 j := by
        show ((memPop _).1.heap).getD j 0 = _
        rw [memPop_heap, getD_take_lt _ _ (by omega)]
        rfl
      have hg2 : hGet (memPop (heapDownGo (memSwap st 0 (st.heap.length - 1)) 0
          (st.heap.length - 1)).1).1 (parentIdx j) = hGet (heapDownGo
          (memSwap st 0 (st.heap.length - 1)) 0 (st.heap.length - 1)).1
          (parentIdx j) := by
        show ((memPop _).1.heap).getD (parentIdx j) 0 = _
        rw [memPop_heap, getD_take_lt _ _ (by omega)]
        rfl
      rw [lastAt_eq_lastOf, lastAt_eq_lastOf, hg1, hg2,
        hpcore.2.2.2.2 _, hpcore.2.2.2.2 _]
      exact hdu j hj hj0
    · rw [hplen, hdlen]
    · intro q
      rw [memPop_mem hdb.2.2 hdne q, hdlen, hdlast, hdp.mem_iff]
    · exact hpcore.1.trans hdio.lt
    · exact hpcore.2.1.trans hdio.al
    · intro p
      exact (hpcore.2.2.1 p).trans (hdio.sd p)
    · intro p
      exact (hpcore.2.2.2.1 p).trans (hdio.dt p)
    · intro p
      exact (hpcore.2.2.2.2 p).trans (hdio.la p)
  · rename_i hn0
    have hlen1 : st.heap.length = 1 := by omega
    have hpb := memPop_WFbase ⟨hptr, hpos, hnd⟩ hne
    have hpic := memPop_indexCorrect ⟨hptr, hpos, hnd⟩ hic hne
    have hpcore := memPop_core st
    refine ⟨⟨hpb.1, hpb.2.1, hpb.2.2, hpic, ?_⟩, ?_, ?_, hpcore.1, hpcore.2.1,
      hpcore.2.2.1, hpcore.2.2.2.1, hpcore.2.2.2.2⟩
    · intro j hj hj0
      rw [memPop_heap_length, hlen1] at hj
      omega
    · rw [memPop_heap_length]
    · intro q
      have := memPop_mem hnd hne q
      rw [hlen1] at this
      simpa using this

theorem indexCorrect_length {st : MemoryStore} (hnd : st.heap.Nodup)
    (hic : IndexCorrect st) : st.heap.length = st.index.length := by
  obtain ⟨hk, hv, hl⟩ := hic
  have hsnd : (st.index.map Prod.snd).Nodup := by
    rw [nodup_iff_getD _ 0]
    intro k1 k2 h1 h2 hne he
    rw [List.length_map] at h1 h2
    rw [List.getD_eq_getElem _ _ (by rw [List.length_map]; exact h1),
      List.getD_eq_getElem _ _ (by rw [List.length_map]; exact h2),
      List.getElem_map, List.getElem_map] at he
    have hm1 := List.getElem_mem h1
    have hm2 := List.getElem_mem h2
    have hs1 := (hv _ hm1).2
    have hs2 := (hv _ hm2).2
    have hkeq : (st.index[k1]).1 = (st.index[k2]).1 := by
      rw [← hs1, ← hs2, he]
    have := (nodup_iff_getD (st.index.map Prod.fst) (st.index[k1]).1).mp hk
      k1 k2 (by rw [List.length_map]; exact h1)
      (by rw [List.length_map]; exact h2) hne
    apply this
    rw [List.getD_eq_getElem _ _ (by rw [List.length_map]; exact h1),
      List.getD_eq_getElem _ _ (by rw [List.length_map]; exact h2),
      List.getElem_map, List.getElem_map]
    exact hkeq
  have hperm : (st.index.map Prod.snd).Perm st.heap := by
    apply (List.perm_ext_iff_of_nodup hsnd hnd).mpr
    intro p
    rw [List.mem_map]
    constructor
    · rintro ⟨kv, hkv, hp⟩
      exact hp ▸ (hv kv hkv).1
    · intro hp
      exact ⟨(sidOf st p, p), alookup_mem (hl p hp), rfl⟩
  have := hperm.length_eq
  rw [List.length_map] at this
  exact this.symm

theorem memGCLoop_spec (st : MemoryStore) (now : Int) (k : Nat) (hWF : WF st) :
    WF (memGCLoop st now (fun _ => false) k) ∧
    (∀ q, q ∈ (memGCLoop st now (fun _ => false) k).heap ↔
        (q ∈ st.heap ∧ now < lastOf st q + st.lifetime)) ∧
    (∀ p, sidOf (memGCLoop st now (fun _ => false) k) p = sidOf st p) ∧
    (∀ p, dataOf (memGCLoop st now (fun _ => false) k) p = dataOf st p) ∧
    (∀ p, lastOf (memGCLoop st now (fun _ => false) k) p = lastOf st p) ∧
    (memGCLoop st now (fun _ => false) k).lifetime = st.lifetime ∧
    (memGCLoop st now (fun _ => false) k).arena.length = st.arena.length := by
  rw [memGCLoop]
  dsimp only
  rw [if_neg Bool.false_ne_true]
  split
  · rename_i h0
    rw [List.length_eq_zero] at h0
    refine ⟨hWF, ?_, fun _ => rfl, fun _ => rfl, fun _ => rfl, rfl, rfl⟩
    intro q
    rw [h0]
    simp
  · rename_i h0
    split
    · rename_i hfresh
      refine ⟨hWF, ?_, fun _ => rfl, fun _ => rfl, fun _ => rfl, rfl, rfl⟩
      intro q
      refine ⟨fun hq => ⟨hq, ?_⟩, fun hq => hq.1⟩
      rw [mem_iff_getD _ _ 0] at hq
      obtain ⟨pos, hpos, hpq⟩ := hq
      have hroot := heapUpTo_root_min hWF.2.2.2.2 pos hpos
      have hlq : lastAt st 0 ≤ lastOf st q := by
        rw [← hpq]
        exact hroot
      calc now < (getSess st (hGet st 0)).lastAccessedAt + st.lifetime := hfresh
        _ ≤ lastOf st q + st.lifetime := by
            have : lastAt st 0 = (getSess st (hGet st 0)).lastAccessedAt := rfl
            omega
    · rename_i hexp
      have hidx : (getSess st (hGet st 0)).idx.toNat = 0 := by
        rw [hWF.2.1 0 (by omega)]
        rfl
      rw [hidx]
      have rr := removeRoot_spec st hWF h0
      have ih := memGCLoop_spec (heapRemoveGo st 0).1 now (k + 1) rr.1
      have hexp2 : ¬ now < lastOf st (hGet st 0) + st.lifetime := hexp
      refine ⟨ih.1, ?_, ?_, ?_, ?_, ?_, ?_⟩
      · intro q
        rw [ih.2.1 q, rr.2.2.1 q, rr.2.2.2.2.2.2.2 q, rr.2.2.2.1]
        constructor
        · rintro ⟨⟨hq, _⟩, hf⟩
          exact ⟨hq, hf⟩
        · rintro ⟨hq, hf⟩
          refine ⟨⟨hq, ?_⟩, hf⟩
          intro hc
          rw [hc] at hf
          exact hexp2 hf
      · intro p
        rw [ih.2.2.1 p, rr.2.2.2.2.2.1 p]
      · intro p
        rw [ih.2.2.2.1 p, rr.2.2.2.2.2.2.1 p]
      · intro p
        rw [ih.2.2.2.2.1 p, rr.2.2.2.2.2.2.2 p]
      · rw [ih.2.2.2.2.2.1, rr.2.2.2.1]
      · rw [ih.2.2.2.2.2.2, rr.2.2.2.2.1]
termination_by st.heap.length
decreasing_by
  rw [heapRemoveGo_heap_length]
  omega

/-! ### Effects of the read/create path -/

theorem getSess_arena_append (st : MemoryStore) (s : MemorySession) (q : Nat) :
    getSess { st with arena := st.arena ++ [s] } q =
      if q = st.arena.length then s else getSess st q := by
  by_cases hq : q = st.arena.length
  · rw [if_pos hq, hq]
    exact getD_concat_self _ _ _
  · rw [if_neg hq]
    show (st.arena ++ [s]).getD q default = st.arena.getD q default
    rcases Nat.lt_or_ge q st.arena.length with h | h
    · exact List.getD_append _ _ _ _ h
    · have e1 : (st.arena ++ [s]).getD q default = default :=
        List.getD_eq_default _ _ (by simp; omega)
      have e2 : st.arena.getD q default = default :=
        List.getD_eq_default _ _ h
      rw [e1, e2]

theorem memPush_facts (st : MemoryStore) (p : Ptr) :
    (memPush st p).index = aupsert (sidOf st p) p st.index ∧
    (memPush st p).lifetime = st.lifetime ∧
    (memPush st p).arena.length = st.arena.length ∧
    (∀ q, sidOf (memPush st p) q = sidOf st q) ∧
    (∀ q, dataOf (memPush st p) q = dataOf st q) ∧
    (∀ q, lastOf (memPush st p) q = lastOf st q) := by
  have hio := idxOnly_setSessIdx st p ((st.heap.length : Int))
  refine ⟨?_, hio.lt, hio.al, hio.sd, hio.dt, hio.la⟩
  show aupsert (getSess (setSessIdx st p _) p).sid p st.index = _
  rw [show (getSess (setSessIdx st p ((st.heap.length : Int))) p).sid
    = sidOf st p from hio.sd p]

theorem heapPushAlg_facts (st : MemoryStore) (p : Ptr) :
    (heapPushAlg st p).index = aupsert (sidOf st p) p st.index ∧
    (heapPushAlg st p).lifetime = st.lifetime ∧
    (heapPushAlg st p).arena.length = st.arena.length ∧
    (∀ q, sidOf (heapPushAlg st p) q = sidOf st q) ∧
    (∀ q, dataOf (heapPushAlg st p) q = dataOf st q) ∧
    (∀ q, lastOf (heapPushAlg st p) q = lastOf st q) := by
  unfold heapPushAlg
  dsimp only
  have hup := idxOnly_heapUpGo (memPush st p) ((memPush st p).heap.length - 1)
  have hpf := memPush_facts st p
  refine ⟨hup.im.trans hpf.1, hup.lt.trans hpf.2.1, hup.al.trans hpf.2.2.1,
    ?_, ?_, ?_⟩ <;> intro q
  · exact (hup.sd q).trans (hpf.2.2.2.1 q)
  · exact (hup.dt q).trans (hpf.2.2.2.2.1 q)
  · exact (hup.la q).trans (hpf.2.2.2.2.2 q)

theorem memCreateSession_facts (st : MemoryStore) (now : Int) (sid : GoStr) :
    (memCreateSession st now sid).1 = st.arena.length ∧
    (memCreateSession st now sid).2.index =
      aupsert sid st.arena.length st.index ∧
    (memCreateSession st now sid).2.lifetime = st.lifetime ∧
    sidOf (memCreateSession st now sid).2 st.arena.length = sid ∧
    dataOf (memCreateSession st now sid).2 st.arena.length = [] ∧
    lastOf (memCreateSession st now sid).2 st.arena.length = now := by
  unfold memCreateSession
  dsimp only
  have hst2 : ∀ q, getSess { st with arena := st.arena ++ [memNewSession sid] } q =
      if q = st.arena.length then memNewSession sid else getSess st q :=
    getSess_arena_append st (memNewSession sid)
  have haren : ({ st with arena := st.arena ++ [memNewSession sid] } :
      MemoryStore).arena.length = st.arena.length + 1 := by simp
  have hsl : ∀ q, getSess (setSessLast
      { st with arena := st.arena ++ [memNewSession sid] } st.arena.length now) q =
      if q = st.arena.length
      then { memNewSession sid with lastAccessedAt := now }
      else getSess st q := by
    intro q
    rw [getSess_setSessLast]
    by_cases hq : q = st.arena.length
    · rw [if_pos ⟨hq, by simp⟩, if_pos hq, hst2, if_pos rfl]
    · rw [if_neg (fun hc => hq hc.1), if_neg hq, hst2, if_neg hq]
  have hpf := heapPushAlg_facts (setSessLast
    { st with arena := st.arena ++ [memNewSession sid] } st.arena.length now)
    st.arena.length
  refine ⟨rfl, ?_, ?_, ?_, ?_, ?_⟩
  · rw [hpf.1]
    have hsid : sidOf (setSessLast { st with arena := st.arena ++
        [memNewSession sid] } st.arena.length now) st.arena.length = sid := by
      unfold sidOf
      rw [hsl, if_pos rfl]
      rfl
    rw [hsid]
    rfl
  · rw [hpf.2.1]
    rfl
  · rw [hpf.2.2.2.1]
    unfold sidOf
    rw [hsl, if_pos rfl]
    rfl
  · rw [hpf.2.2.2.2.1]
    unfold dataOf
    rw [hsl, if_pos rfl]
    rfl
  · rw [hpf.2.2.2.2.2]
    unfold lastOf
    rw [hsl, if_pos rfl]

/-! ### Postgres `Touch` lemmas -/

theorem alookup_pgTouch_self (L now : Int) (db : PgDB) (sid : GoStr) :
    alookup sid (pgTouch L now db sid) =
      (alookup sid db).map (fun row => { row with expiredAt := now + L }) := by
  induction db with
  | nil => rfl
  | cons kv t ih =>
    by_cases hk : kv.1 = sid
    · simp [pgTouch, alookup, hk]
    · rw [show pgTouch L now (kv :: t) sid = kv :: pgTouch L now t sid from by
          simp [pgTouch, hk],
        show alookup sid (kv :: pgTouch L now t sid)
          = alookup sid (pgTouch L now t sid) from by simp [alookup, hk],
        show alookup sid (kv :: t) = alookup sid t from by simp [alookup, hk]]
      exact ih

theorem alookup_pgTouch_ne (L now : Int) (db : PgDB) (sid sid' : GoStr)
    (h : sid' ≠ sid) :
    alookup sid' (pgTouch L now db sid) = alookup sid' db := by
  induction db with
  | nil => rfl
  | cons kv t ih =>
    by_cases hk : kv.1 = sid
    · have hk' : kv.1 ≠ sid' := by rw [hk]; exact fun hc => h hc.symm
      simp only [pgTouch, List.map_cons, if_pos hk, alookup] at ih ⊢
      simp [hk', ih]
    · simp only [pgTouch, List.map_cons, if_neg hk, alookup] at ih ⊢
      by_cases hk' : kv.1 = sid'
      · simp [hk']
      · simp [hk', ih]

theorem pgTouch_noop (L now : Int) (db : PgDB) (sid : GoStr)
    (h : alookup sid db = none) : pgTouch L now db sid = db := by
  rw [alookup_eq_none_iff] at h
  induction db with
  | nil => rfl
  | cons kv t ih =>
    have hk : kv.1 ≠ sid := h kv (List.mem_cons_self _ _)
    simp only [pgTouch, List.map_cons, if_neg hk] at ih ⊢
    rw [ih (fun kv2 h2 => h kv2 (List.mem_cons_of_mem _ h2))]

/-! ### Concrete states for examples -/

/-- An empty memory store with lifetime 100. -/
def memStoreEmpty : MemoryStore :=
  { lifetime := 100, heap := [], index := [], arena := [] }

/-- A well-formed memory store with three sessions last accessed at 0, 5
and 10, lifetime 7. -/
def gcWitnessStore : MemoryStore :=
  { lifetime := 7
    heap := [0, 1, 2]
    index := [([97], 0), ([98], 1), ([99], 2)]
    arena :=
      [{ sid := [97], data := [], changed := false, lastAccessedAt := 0, idx := 0 },
       { sid := [98], data := [], changed := false, lastAccessedAt := 5, idx := 1 },
       { sid := [99], data := [], changed := false, lastAccessedAt := 10, idx := 2 }] }

/-- The payload key `"name"` of the concrete postgres scenario. -/
def nameKey : GoVal := .vstr [110, 97, 109, 101]

/-- The payload value `"x"` of the concrete postgres scenario. -/
def xVal : GoVal := .vstr [120]

/-- The session `"2"` with `name = "x"` set, as saved in the postgres
scenario. -/
def pgDemoSess : BaseSession :=
  (newBaseSession [50] encDemoKV).set nameKey xVal

/-- The table row produced by saving `pgDemoSess` at time 0 with
lifetime 100. -/
def pgDemoDB : PgDB :=
  [([50], { bin := [1], expiredAt := 100 })]

/-- A one-row table whose entry would expire at time 5. -/
def pgTouchDemoDB : PgDB :=
  [([97], { bin := [0], expiredAt := 5 })]

/-! ### Sift-up correctness and well-formedness of all reachable states -/

/-- The heap ordering on `[0, n)` allowing violations at the edge between
the sift-up hole `j` and its parent, while the hole's parent still
dominates the hole's children. -/
def AlmostHeapUpAt (st : MemoryStore) (n j : Nat) : Prop :=
  (∀ c, c < n → 0 < c → c ≠ j → lastAt st (parentIdx c) ≤ lastAt st c) ∧
  (0 < j → ∀ c, c < n → parentIdx c = j → lastAt st (parentIdx j) ≤ lastAt st c)

theorem heapUpGo_hGet_gt (st : MemoryStore) (j : Nat)
    (hj : j < st.heap.length) : ∀ k, j < k → hGet (heapUpGo st j) k = hGet st k := by
  intro k hk
  rw [heapUpGo]
  split
  · rfl
  · rename_i h
    push_neg at h
    have hij : (j - 1) / 2 < j := by omega
    rw [heapUpGo_hGet_gt (memSwap st ((j - 1) / 2) j) ((j - 1) / 2)
        (by rw [memSwap_heap_length]; omega) k (by omega),
      hGet_memSwap st (by omega) hj k, if_neg (by omega), if_neg (by omega)]
termination_by j
decreasing_by
  omega

theorem heapUpGo_heap_perm (st : MemoryStore) (j : Nat)
    (hj : j < st.heap.length) : (heapUpGo st j).heap.Perm st.heap := by
  rw [heapUpGo]
  split
  · exact List.Perm.refl _
  · rename_i h
    push_neg at h
    exact (heapUpGo_heap_perm _ _ (by rw [memSwap_heap_length]; omega)).trans
      (memSwap_heap_perm st (by omega) hj (by omega))
termination_by j
decreasing_by
  omega

theorem heapUpGo_WFbase (st : MemoryStore) (j : Nat)
    (hj : j < st.heap.length) (h : WFbase st) : WFbase (heapUpGo st j) := by
  rw [heapUpGo]
  split
  · exact h
  · rename_i hc
    push_neg at hc
    exact heapUpGo_WFbase _ _ (by rw [memSwap_heap_length]; omega)
      (memSwap_WFbase (by omega) hj (by omega) h)
termination_by j
decreasing_by
  omega

theorem almostHeapUp_swap_step {st : MemoryStore} {n j : Nat}
    (hn : n ≤ st.heap.length) (hjn : j < n) (hj0 : 0 < j)
    (hless : lastAt st j < lastAt st (parentIdx j))
    (h : AlmostHeapUpAt st n j) :
    AlmostHeapUpAt (memSwap st (parentIdx j) j) n (parentIdx j) := by
  have hij : parentIdx j < j := by unfold parentIdx; omega
  have hi_len : parentIdx j < st.heap.length := by omega
  have hj_len : j < st.heap.length := by omega
  have key := lastAt_memSwap st hi_len hj_len
  constructor
  · intro c hc hc0 hci
    rw [key (parentIdx c), key c]
    by_cases hcj : c = j
    · -- the pair (i, j) after the swap
      subst hcj
      rw [if_neg (show parentIdx c ≠ c from by omega), if_pos rfl, if_pos rfl]
      exact hless.le
    · by_cases hpc : parentIdx c = j
      · -- c is a child of the old hole j
        have hcj2 : 2 * j + 1 ≤ c := by unfold parentIdx at hpc; omega
        rw [if_pos hpc, if_neg hcj, if_neg (by omega)]
        exact h.2 hj0 c hc hpc
      · by_cases hpci : parentIdx c = parentIdx j
        · -- c is the sibling of j (or j itself, excluded)
          rw [if_neg hpc, if_pos hpci, if_neg hcj, if_neg hci]
          have h1 : lastAt st (parentIdx c) ≤ lastAt st c :=
            h.1 c hc hc0 hcj
          have h2 : lastAt st j < lastAt st (parentIdx c) := by
            rw [hpci]
            exact hless
          omega
        · rw [if_neg hpc, if_neg hpci, if_neg hcj, if_neg hci]
          exact h.1 c hc hc0 hcj
  · intro hi0 c hc hpc
    -- c is a child of the new hole i = parentIdx j
    rw [key (parentIdx (parentIdx j)), key c]
    have hppj : parentIdx (parentIdx j) < parentIdx j := by
      unfold parentIdx at hi0 ⊢
      omega
    rw [if_neg (by omega), if_neg (by omega)]
    by_cases hcj : c = j
    · rw [if_pos hcj]
      exact h.1 (parentIdx j) (by omega) hi0 (by omega)
    · have hcpj : c ≠ parentIdx j := by
        intro hci2
        rw [hci2] at hpc
        omega
      rw [if_neg hcj, if_neg hcpj]
      have h1 : lastAt st (parentIdx (parentIdx j)) ≤ lastAt st (parentIdx j) :=
        h.1 (parentIdx j) (by omega) hi0 (by omega)
      have h2 : lastAt st (parentIdx c) ≤ lastAt st c := by
        have hc0 : 0 < c := by
          unfold parentIdx at hpc hi0
          omega
        exact h.1 c hc hc0 hcj
      rw [hpc] at h2
      omega

theorem heapUpGo_heapUpTo (st : MemoryStore) (j n : Nat)
    (hn : n ≤ st.heap.length) (hjn : j < n) (h : AlmostHeapUpAt st n j) :
    HeapUpTo (heapUpGo st j) n := by
  rw [heapUpGo]
  split
  · rename_i hc
    -- stop: the hole is the root, or it no longer undercuts its parent
    rcases hc with hc | hc
    · -- (j-1)/2 = j, so j = 0 and no pair is exempt
      intro c hcn hc0
      exact h.1 c hcn hc0 (by omega)
    · simp only [memLess, decide_eq_true_eq, not_lt] at hc
      intro c hcn hc0
      by_cases hcj : c = j
      · subst hcj
        exact hc
      · exact h.1 c hcn hc0 hcj
  · rename_i hc
    push_neg at hc
    obtain ⟨hne, hlt⟩ := hc
    simp only [memLess, decide_eq_true_eq] at hlt
    have hj0 : 0 < j := by omega
    apply heapUpGo_heapUpTo _ _ n (by rw [memSwap_heap_length]; exact hn)
      (by omega)
    exact almostHeapUp_swap_step hn hjn hj0 hlt h
termination_by j
decreasing_by
  rename_i h2
  push_neg at h2
  omega

theorem heapDownGo_pos (st : MemoryStore) (i n : Nat) :
    i ≤ (heapDownGo st i n).2 := by
  rw [heapDownGo]
  dsimp only
  split
  · split
    · split
      · exact le_trans (by omega) (heapDownGo_pos _ _ _)
      · exact le_refl i
    · split
      · exact le_trans (by omega) (heapDownGo_pos _ _ _)
      · exact le_refl i
  · exact le_refl i
termination_by n - i
decreasing_by
  all_goals omega

theorem heapDownGo_step (st : MemoryStore) (i n j0 : Nat)
    (hsel : j0 = if 2 * i + 2 < n ∧ memLess st (2 * i + 2) (2 * i + 1) = true
      then 2 * i + 2 else 2 * i + 1)
    (h1 : 2 * i + 1 < n) (hl : memLess st j0 i = true) :
    heapDownGo st i n = heapDownGo (memSwap st i j0) j0 n := by
  subst hsel
  rw [heapDownGo]
  dsimp only
  rw [if_pos h1, if_pos hl]

theorem heapDownGo_stop (st : MemoryStore) (i n j0 : Nat)
    (hsel : j0 = if 2 * i + 2 < n ∧ memLess st (2 * i + 2) (2 * i + 1) = true
      then 2 * i + 2 else 2 * i + 1)
    (h1 : 2 * i + 1 < n) (hl : ¬ memLess st j0 i = true) :
    heapDownGo st i n = (st, i) := by
  subst hsel
  rw [heapDownGo]
  dsimp only
  rw [if_pos h1, if_neg hl]

theorem heapDownGo_leaf (st : MemoryStore) (i n : Nat)
    (h1 : ¬ 2 * i + 1 < n) : heapDownGo st i n = (st, i) := by
  rw [heapDownGo]
  dsimp only
  rw [if_neg h1]

/-- The shared `down`-then-`up` tail of `container/heap.Fix` and
`container/heap.Remove`: sift down within the first `n` slots, and if the
element did not move down, sift it up. -/
def downUpGo (st : MemoryStore) (i n : Nat) : MemoryStore :=
  let r := heapDownGo st i n
  if r.2 > i then r.1 else heapUpGo r.1 i

theorem heapFixGo_eq_downUpGo (st : MemoryStore) (i : Nat) :
    heapFixGo st i = downUpGo st i st.heap.length := rfl

theorem heapRemoveGo_eq (st : MemoryStore) (i : Nat) :
    heapRemoveGo st i =
      if st.heap.length - 1 ≠ i
      then memPop (downUpGo (memSwap st i (st.heap.length - 1)) i
        (st.heap.length - 1))
      else memPop st := rfl

theorem downUpGo_heap_length (st : MemoryStore) (i n : Nat) :
    (downUpGo st i n).heap.length = st.heap.length := by
  unfold downUpGo
  dsimp only
  split
  · exact heapDownGo_heap_length st i n
  · rw [heapUpGo_heap_length, heapDownGo_heap_length]

theorem idxOnly_downUpGo (st : MemoryStore) (i n : Nat) :
    IdxOnly st (downUpGo st i n) := by
  unfold downUpGo
  dsimp only
  split
  · exact idxOnly_heapDownGo _ _ _
  · exact idxOnly_trans (idxOnly_heapDownGo _ _ _) (idxOnly_heapUpGo _ _)

theorem downUpGo_WFbase (st : MemoryStore) (i n : Nat)
    (hn : n ≤ st.heap.length) (hi : i < st.heap.length) (h : WFbase st) :
    WFbase (downUpGo st i n) := by
  unfold downUpGo
  dsimp only
  split
  · exact heapDownGo_WFbase st i n hn h
  · exact heapUpGo_WFbase _ i (by rw [heapDownGo_heap_length]; exact hi)
      (heapDownGo_WFbase st i n hn h)

theorem downUpGo_heap_perm (st : MemoryStore) (i n : Nat)
    (hn : n ≤ st.heap.length) (hi : i < st.heap.length) :
    (downUpGo st i n).heap.Perm st.heap := by
  unfold downUpGo
  dsimp only
  split
  · exact heapDownGo_heap_perm st i n hn
  · exact (heapUpGo_heap_perm _ i
      (by rw [heapDownGo_heap_length]; exact hi)).trans
      (heapDownGo_heap_perm st i n hn)

theorem downUpGo_hGet_ge (st : MemoryStore) (i n : Nat)
    (hn : n ≤ st.heap.length) (hin : i < n) (k : Nat) (hk : n ≤ k) :
    hGet (downUpGo st i n) k = hGet st k := by
  unfold downUpGo
  dsimp only
  split
  · exact heapDownGo_hGet_ge st i n hn k hk
  · rw [heapUpGo_hGet_gt _ i (by rw [heapDownGo_heap_length]; omega) k
      (by omega), heapDownGo_hGet_ge st i n hn k hk]

/-- The heap ordering on `[0, n)` with the slot `i`'s key arbitrary: every
parent-child pair not involving `i` is ordered, and `i`'s parent still
dominates `i`'s children. -/
def AlmostHeapBothAt (st : MemoryStore) (n i : Nat) : Prop :=
  (∀ j, j < n → 0 < j → parentIdx j ≠ i → j ≠ i →
    lastAt st (parentIdx j) ≤ lastAt st j) ∧
  (0 < i → ∀ j, j < n → parentIdx j = i → lastAt st (parentIdx i) ≤ lastAt st j)

theorem almostHeapBoth_to_up {st : MemoryStore} {n i : Nat}
    (h : AlmostHeapBothAt st n i)
    (hchild : ∀ c, c < n → 0 < c → parentIdx c = i → lastAt st i ≤ lastAt st c) :
    AlmostHeapUpAt st n i := by
  constructor
  · intro c hc hc0 hci
    by_cases hp : parentIdx c = i
    · rw [hp]
      exact hchild c hc hc0 hp
    · exact h.1 c hc hc0 hp hci
  · exact h.2

theorem almostHeapBoth_swap_step {st : MemoryStore} {n i j : Nat}
    (hn : n ≤ st.heap.length)
    (hij1 : j = 2 * i + 1 ∨ j = 2 * i + 2) (hjn : j < n)
    (hmin : ∀ c, c < n → parentIdx c = i → c ≠ j → lastAt st j ≤ lastAt st c)
    (hless : lastAt st j < lastAt st i)
    (h : AlmostHeapBothAt st n i) :
    AlmostHeapAt (memSwap st i j) n j := by
  have hj1 : 1 ≤ j := by rcases hij1 with h1 | h1 <;> omega
  have hij : i < j := by rcases hij1 with h1 | h1 <;> omega
  have hi_len : i < st.heap.length := by omega
  have hj_len : j < st.heap.length := by omega
  have hpar : parentIdx j = i := by
    unfold parentIdx
    rcases hij1 with h1 | h1 <;> omega
  have key := lastAt_memSwap st hi_len hj_len
  constructor
  · intro c hc hc0 hpc
    rw [key (parentIdx c), key c]
    by_cases hcj : c = j
    · subst hcj
      rw [if_pos rfl, if_neg (by omega), if_pos hpar]
      exact hless.le
    · by_cases hci : c = i
      · subst hci
        have hpar_lt : parentIdx c < c := by unfold parentIdx; omega
        rw [if_neg hcj, if_pos rfl, if_neg (by omega), if_neg (by omega)]
        exact h.2 hc0 j hjn hpar
      · rw [if_neg hcj, if_neg hci]
        by_cases hpci : parentIdx c = i
        · rw [if_neg (by omega), if_pos hpci]
          exact hmin c hc hpci hcj
        · rw [if_neg hpc, if_neg hpci]
          exact h.1 c hc hc0 hpci hci
  · intro hj0 c hc hpc
    have hc_big : 2 * j + 1 ≤ c := by
      unfold parentIdx at hpc
      omega
    rw [key (parentIdx j), key c, hpar, if_neg (by omega), if_pos rfl,
      if_neg (by omega), if_neg (by omega)]
    have hc0 : 0 < c := by omega
    have hpci : parentIdx c ≠ i := by omega
    have hstep := h.1 c hc hc0 hpci (by omega)
    rwa [hpc] at hstep

theorem downUpGo_heapUpTo (st : MemoryStore) (i n : Nat)
    (hn : n ≤ st.heap.length) (hin : i < n) (h : AlmostHeapBothAt st n i) :
    HeapUpTo (downUpGo st i n) n := by
  have hup : AlmostHeapUpAt st n i → HeapUpTo (heapUpGo st i) n :=
    heapUpGo_heapUpTo st i n hn hin
  unfold downUpGo
  dsimp only
  by_cases h1 : 2 * i + 1 < n
  · by_cases h2 : 2 * i + 2 < n ∧ memLess st (2 * i + 2) (2 * i + 1) = true
    · have h22 : lastAt st (2 * i + 2) < lastAt st (2 * i + 1) := by
        have := h2.2
        simpa [memLess] using this
      by_cases hl : memLess st (2 * i + 2) i = true
      · have hl3 : lastAt st (2 * i + 2) < lastAt st i := by
          simpa [memLess] using hl
        have hl' : memLess st (if 2 * i + 2 < n ∧
            memLess st (2 * i + 2) (2 * i + 1) = true
            then 2 * i + 2 else 2 * i + 1) i = true := by
          rw [if_pos h2]
          exact hl
        rw [heapDownGo_step st i n _ rfl h1 hl', if_pos h2]
        split
        · apply heapDownGo_heapUpTo _ _ n (by rw [memSwap_heap_length]; exact hn)
          apply almostHeapBoth_swap_step hn (Or.inr rfl) h2.1 ?_ hl3 h
          intro c hc hpc hcj
          have hcase : c = 2 * i + 1 ∨ (c = 0 ∧ i = 0) := by
            unfold parentIdx at hpc
            omega
          rcases hcase with hc1 | ⟨hc0, hi0⟩
          · rw [hc1]
            exact h22.le
          · subst hi0
            rw [hc0]
            exact hl3.le
        · rename_i hcon
          exact absurd (lt_of_lt_of_le (by omega) (heapDownGo_pos _ _ _)) hcon
      · have hl' : ¬ memLess st (if 2 * i + 2 < n ∧
            memLess st (2 * i + 2) (2 * i + 1) = true
            then 2 * i + 2 else 2 * i + 1) i = true := by
          rw [if_pos h2]
          exact hl
        rw [heapDownGo_stop st i n _ rfl h1 hl']
        split
        · rename_i hcon
          exact absurd hcon (lt_irrefl i)
        · apply hup
          apply almostHeapBoth_to_up h
          intro c hc hc0 hpc
          have hle : lastAt st i ≤ lastAt st (2 * i + 2) := by
            simpa [memLess, not_lt] using hl
          have hcase : c = 2 * i + 1 ∨ c = 2 * i + 2 := by
            unfold parentIdx at hpc
            omega
          rcases hcase with hc1 | hc2
          · rw [hc1]
            exact le_trans hle h22.le
          · rw [hc2]
            exact hle
    · by_cases hl : memLess st (2 * i + 1) i = true
      · have hl3 : lastAt st (2 * i + 1) < lastAt st i := by
          simpa [memLess] using hl
        have hl' : memLess st (if 2 * i + 2 < n ∧
            memLess st (2 * i + 2) (2 * i + 1) = true
            then 2 * i + 2 else 2 * i + 1) i = true := by
          rw [if_neg h2]
          exact hl
        rw [heapDownGo_step st i n _ rfl h1 hl', if_neg h2]
        split
        · apply heapDownGo_heapUpTo _ _ n (by rw [memSwap_heap_length]; exact hn)
          apply almostHeapBoth_swap_step hn (Or.inl rfl) h1 ?_ hl3 h
          intro c hc hpc hcj
          have hcase : (c = 2 * i + 2 ∧ c < n) ∨ (c = 0 ∧ i = 0) := by
            unfold parentIdx at hpc
            omega
          rcases hcase with ⟨hc2, hcn⟩ | ⟨hc0, hi0⟩
          · have hnl : ¬ lastAt st (2 * i + 2) < lastAt st (2 * i + 1) := by
              intro hlt
              exact h2 ⟨by omega, by simpa [memLess] using hlt⟩
            rw [hc2]
            exact not_lt.mp hnl
          · subst hi0
            rw [hc0]
            exact hl3.le
        · rename_i hcon
          exact absurd (lt_of_lt_of_le (by omega) (heapDownGo_pos _ _ _)) hcon
      · have hl' : ¬ memLess st (if 2 * i + 2 < n ∧
            memLess st (2 * i + 2) (2 * i + 1) = true
            then 2 * i + 2 else 2 * i + 1) i = true := by
          rw [if_neg h2]
          exact hl
        rw [heapDownGo_stop st i n _ rfl h1 hl']
        split
        · rename_i hcon
          exact absurd hcon (lt_irrefl i)
        · apply hup
          apply almostHeapBoth_to_up h
          intro c hc hc0 hpc
          have hle : lastAt st i ≤ lastAt st (2 * i + 1) := by
            simpa [memLess, not_lt] using hl
          have hcase : c = 2 * i + 1 ∨ (c = 2 * i + 2 ∧ c < n) := by
            unfold parentIdx at hpc
            omega
          rcases hcase with hc1 | ⟨hc2, hcn⟩
          · rw [hc1]
            exact hle
          · have hnl : ¬ lastAt st (2 * i + 2) < lastAt st (2 * i + 1) := by
              intro hlt
              exact h2 ⟨by omega, by simpa [memLess] using hlt⟩
            rw [hc2]
            exact le_trans hle (not_lt.mp hnl)
  · rw [heapDownGo_leaf st i n h1]
    split
    · rename_i hcon
      exact absurd hcon (lt_irrefl i)
    · apply hup
      apply almostHeapBoth_to_up h
      intro c hc hc0 hpc
      exact absurd hc (by unfold parentIdx at hpc; omega)

theorem removeAt_spec (st : MemoryStore) (i : Nat) (hWF : WF st)
    (hi : i < st.heap.length) :
    WF (heapRemoveGo st i).1 ∧
    (heapRemoveGo st i).1.heap.length = st.heap.length - 1 ∧
    (∀ q, q ∈ (heapRemoveGo st i).1.heap ↔ q ∈ st.heap ∧ q ≠ hGet st i) ∧
    (heapRemoveGo st i).1.lifetime = st.lifetime ∧
    (heapRemoveGo st i).1.arena.length = st.arena.length ∧
    (∀ p, sidOf (heapRemoveGo st i).1 p = sidOf st p) ∧
    (∀ p, dataOf (heapRemoveGo st i).1 p = dataOf st p) ∧
    (∀ p, lastOf (heapRemoveGo st i).1 p = lastOf st p) := by
  obtain ⟨hptr, hpos, hnd, hic, hheap⟩ := hWF
  rw [heapRemoveGo_eq]
  by_cases hni : st.heap.length - 1 ≠ i
  · rw [if_pos hni]
    have him : i < st.heap.length - 1 := by omega
    have hn1len : st.heap.length - 1 < st.heap.length := by omega
    have hine : i ≠ st.heap.length - 1 := by omega
    have hswb : WFbase (memSwap st i (st.heap.length - 1)) :=
      memSwap_WFbase hi hn1len hine ⟨hptr, hpos, hnd⟩
    have hswp : (memSwap st i (st.heap.length - 1)).heap.Perm st.heap :=
      memSwap_heap_perm st hi hn1len hine
    have hswio : IdxOnly st (memSwap st i (st.heap.length - 1)) :=
      idxOnly_memSwap st i (st.heap.length - 1)
    have hswlen := memSwap_heap_length st i (st.heap.length - 1)
    have hnle : st.heap.length - 1 ≤
        (memSwap st i (st.heap.length - 1)).heap.length := by omega
    have hilen2 : i < (memSwap st i (st.heap.length - 1)).heap.length := by
      omega
    have hab : AlmostHeapBothAt (memSwap st i (st.heap.length - 1))
        (st.heap.length - 1) i := by
      constructor
      · intro c hc hc0 hpci hci
        have hpc_lt : parentIdx c < c := by unfold parentIdx; omega
        rw [lastAt_memSwap st hi hn1len, lastAt_memSwap st hi hn1len,
          if_neg (by omega), if_neg hpci, if_neg (by omega), if_neg hci]
        exact hheap c (by omega) hc0
      · intro hi0 c hc hpc
        have hc_big : 2 * i + 1 ≤ c := by unfold parentIdx at hpc; omega
        have hpi_lt : parentIdx i < i := by unfold parentIdx; omega
        rw [lastAt_memSwap st hi hn1len, lastAt_memSwap st hi hn1len,
          if_neg (by omega), if_neg (by omega), if_neg (by omega),
          if_neg (by omega)]
        have hs2 : lastAt st (parentIdx c) ≤ lastAt st c :=
          hheap c (by omega) (by omega)
        rw [hpc] at hs2
        exact le_trans (hheap i (by omega) hi0) hs2
    have hdu : HeapUpTo (downUpGo (memSwap st i (st.heap.length - 1)) i
        (st.heap.length - 1)) (st.heap.length - 1) :=
      downUpGo_heapUpTo _ i _ hnle him hab
    have hdb : WFbase (downUpGo (memSwap st i (st.heap.length - 1)) i
        (st.heap.length - 1)) :=
      downUpGo_WFbase _ i _ hnle hilen2 hswb
    have hdp : (downUpGo (memSwap st i (st.heap.length - 1)) i
        (st.heap.length - 1)).heap.Perm st.heap :=
      (downUpGo_heap_perm _ i _ hnle hilen2).trans hswp
    have hdio : IdxOnly st (downUpGo (memSwap st i (st.heap.length - 1)) i
        (st.heap.length - 1)) :=
      idxOnly_trans hswio (idxOnly_downUpGo _ _ _)
    have hdlen : (downUpGo (memSwap st i (st.heap.length - 1)) i
        (st.heap.length - 1)).heap.length = st.heap.length := by
      rw [downUpGo_heap_length, hswlen]
    have hdlast : hGet (downUpGo (memSwap st i (st.heap.length - 1)) i
        (st.heap.length - 1)) (st.heap.length - 1) = hGet st i := by
      rw [downUpGo_hGet_ge _ i _ hnle him _ (le_refl _),
        hGet_memSwap st hi hn1len, if_pos rfl]
    have hdic : IndexCorrect (downUpGo (memSwap st i (st.heap.length - 1)) i
        (st.heap.length - 1)) :=
      indexCorrect_of_idxOnly hdio hdp hic
    have hdne : (downUpGo (memSwap st i (st.heap.length - 1)) i
        (st.heap.length - 1)).heap.length ≠ 0 := by
      rw [hdlen]
      omega
    have hpb := memPop_WFbase hdb hdne
    have hpic := memPop_indexCorrect hdb hdic hdne
    have hplen := memPop_heap_length (downUpGo (memSwap st i
      (st.heap.length - 1)) i (st.heap.length - 1))
    have hpcore := memPop_core (downUpGo (memSwap st i
      (st.heap.length - 1)) i (st.heap.length - 1))
    refine ⟨⟨hpb.1, hpb.2.1, hpb.2.2, hpic, ?_⟩, ?_, ?_, ?_, ?_, ?_, ?_, ?_⟩
    · intro j hj hj0
      rw [hplen, hdlen] at hj
      have hpar_lt : parentIdx j < j := by unfold parentIdx; omega
      have hg1 : hGet (memPop (downUpGo (memSwap st i (st.heap.length - 1)) i
          (st.heap.length - 1))).1 j = hGet (downUpGo (memSwap st i
          (st.heap.length - 1)) i (st.heap.length - 1)) j := by
        show ((memPop _).1.heap).getD j 0 = _
        rw [memPop_heap, getD_take_lt _ _ (by omega)]
        rfl
      have hg2 : hGet (memPop (downUpGo (memSwap st i (st.heap.length - 1)) i
          (st.heap.length - 1))).1 (parentIdx j) = hGet (downUpGo
          (memSwap st i (st.heap.length - 1)) i (st.heap.length - 1))
          (parentIdx j) := by
        show ((memPop _).1.heap).getD (parentIdx j) 0 = _
        rw [memPop_heap, getD_take_lt _ _ (by omega)]
        rfl
      rw [lastAt_eq_lastOf, lastAt_eq_lastOf, hg1, hg2,
        hpcore.2.2.2.2 _, hpcore.2.2.2.2 _]
      exact hdu j hj hj0
    · rw [hplen, hdlen]
    · intro q
      rw [memPop_mem hdb.2.2 hdne q, hdlen, hdlast, hdp.mem_iff]
    · exact hpcore.1.trans hdio.lt
    · exact hpcore.2.1.trans hdio.al
    · intro p
      exact (hpcore.2.2.1 p).trans (hdio.sd p)
    · intro p
      exact (hpcore.2.2.2.1 p).trans (hdio.dt p)
    · intro p
      exact (hpcore.2.2.2.2 p).trans (hdio.la p)
  · rw [if_neg hni]
    push_neg at hni
    have hne : st.heap.length ≠ 0 := by omega
    have hpb := memPop_WFbase ⟨hptr, hpos, hnd⟩ hne
    have hpic := memPop_indexCorrect ⟨hptr, hpos, hnd⟩ hic hne
    have hpcore := memPop_core st
    refine ⟨⟨hpb.1, hpb.2.1, hpb.2.2, hpic, ?_⟩, ?_, ?_, hpcore.1, hpcore.2.1,
      hpcore.2.2.1, hpcore.2.2.2.1, hpcore.2.2.2.2⟩
    · intro j hj hj0
      rw [memPop_heap_length] at hj
      have hpar_lt : parentIdx j < j := by unfold parentIdx; omega
      have hg1 : hGet (memPop st).1 j = hGet st j := by
        show ((memPop st).1.heap).getD j 0 = _
        rw [memPop_heap, getD_take_lt _ _ (by omega)]
        rfl
      have hg2 : hGet (memPop st).1 (parentIdx j) = hGet st (parentIdx j) := by
        show ((memPop st).1.heap).getD (parentIdx j) 0 = _
        rw [memPop_heap, getD_take_lt _ _ (by omega)]
        rfl
      rw [lastAt_eq_lastOf, lastAt_eq_lastOf, hg1, hg2,
        hpcore.2.2.2.2 _, hpcore.2.2.2.2 _]
      exact hheap j (by omega) hj0
    · rw [memPop_heap_length]
    · intro q
      rw [memPop_mem hnd hne q, hni]

theorem setSessLast_facts (st : MemoryStore) (p : Ptr) (t : Int) :
    (setSessLast st p t).heap = st.heap ∧
    (setSessLast st p t).index = st.index ∧
    (setSessLast st p t).lifetime = st.lifetime ∧
    (setSessLast st p t).arena.length = st.arena.length ∧
    (∀ q, sidOf (setSessLast st p t) q = sidOf st q) ∧
    (∀ q, dataOf (setSessLast st p t) q = dataOf st q) ∧
    (∀ q, (getSess (setSessLast st p t) q).idx = (getSess st q).idx) := by
  refine ⟨rfl, rfl, rfl, by simp [setSessLast], ?_, ?_, ?_⟩ <;>
    intro q <;>
    simp only [sidOf, dataOf, getSess_setSessLast] <;>
    split <;>
    first
      | rfl
      | (rename_i h; rw [h.1])

theorem lastAt_setSessLast (st : MemoryStore) (p : Ptr) (t : Int)
    (hp : p < st.arena.length) (k : Nat) :
    lastAt (setSessLast st p t) k = if hGet st k = p then t else lastAt st k := by
  show (getSess (setSessLast st p t) (hGet (setSessLast st p t) k)).lastAccessedAt = _
  rw [show hGet (setSessLast st p t) k = hGet st k from rfl, getSess_setSessLast]
  by_cases hk : hGet st k = p
  · rw [if_pos ⟨hk, hp⟩, if_pos hk]
  · rw [if_neg (fun hc => hk hc.1), if_neg hk]
    rfl

theorem aeraseKey_noop {α β : Type} [DecidableEq α] {k : α} {l : List (α × β)}
    (h : alookup k l = none) : aeraseKey k l = l := by
  rw [alookup_eq_none_iff] at h
  induction l with
  | nil => rfl
  | cons kv t ih =>
    have hk : kv.1 ≠ k := h kv (List.mem_cons_self _ _)
    simp only [aeraseKey, if_neg hk]
    rw [ih (fun kv2 h2 => h kv2 (List.mem_cons_of_mem _ h2))]

theorem ptr_position {st : MemoryStore} (hpos : PosInv st) {p : Ptr}
    (hp : p ∈ st.heap) :
    ∃ k, k < st.heap.length ∧ hGet st k = p ∧ (getSess st p).idx = (k : Int) := by
  rw [mem_iff_getD _ _ 0] at hp
  obtain ⟨k, hk, hkp⟩ := hp
  refine ⟨k, hk, hkp, ?_⟩
  rw [← hkp]
  exact hpos k hk

theorem heapFixGo_WF (st : MemoryStore) (k : Nat) (hb : WFbase st)
    (hic : IndexCorrect st) (hk : k < st.heap.length)
    (hah : AlmostHeapBothAt st st.heap.length k) : WF (heapFixGo st k) := by
  rw [heapFixGo_eq_downUpGo]
  have hb2 := downUpGo_WFbase st k st.heap.length (le_refl _) hk hb
  have hperm := downUpGo_heap_perm st k st.heap.length (le_refl _) hk
  have hio := idxOnly_downUpGo st k st.heap.length
  have hup := downUpGo_heapUpTo st k st.heap.length (le_refl _) hk hah
  refine ⟨hb2.1, hb2.2.1, hb2.2.2, indexCorrect_of_idxOnly hio hperm hic, ?_⟩
  rw [downUpGo_heap_length]
  exact hup

/-- The state `memoryStore.Read`'s creation path hands to `heap.Push`
just before the sift-up: fresh session appended to the arena, stamped
with `now`, its position recorded, its ID bound in the index, its pointer
appended to the heap. -/
def createMid (st : MemoryStore) (now : Int) (sid : GoStr) : MemoryStore :=
  memPush (setSessLast { st with arena := st.arena ++ [memNewSession sid] }
    st.arena.length now) st.arena.length

theorem memCreateSession_eq (st : MemoryStore) (now : Int) (sid : GoStr) :
    (memCreateSession st now sid).2 =
      heapUpGo (createMid st now sid) ((createMid st now sid).heap.length - 1) :=
  rfl

theorem createMid_facts (st : MemoryStore) (now : Int) (sid : GoStr) :
    (createMid st now sid).heap = st.heap ++ [st.arena.length] ∧
    (createMid st now sid).index = aupsert sid st.arena.length st.index ∧
    (createMid st now sid).arena.length = st.arena.length + 1 ∧
    (createMid st now sid).lifetime = st.lifetime ∧
    (∀ q, q < st.arena.length →
      getSess (createMid st now sid) q = getSess st q) ∧
    getSess (createMid st now sid) st.arena.length =
      { sid := sid, data := [], changed := false, lastAccessedAt := now,
        idx := (st.heap.length : Int) } := by
  have hg2 : ∀ q, getSess (setSessLast
      { st with arena := st.arena ++ [memNewSession sid] }
      st.arena.length now) q =
      if q = st.arena.length then { memNewSession sid with lastAccessedAt := now }
      else getSess st q := by
    intro q
    rw [getSess_setSessLast]
    by_cases hq : q = st.arena.length
    · rw [if_pos ⟨hq, by simp⟩, if_pos hq, getSess_arena_append, if_pos rfl]
    · rw [if_neg (fun hc => hq hc.1), if_neg hq, getSess_arena_append, if_neg hq]
  have hg3 : ∀ q, getSess (createMid st now sid) q =
      if q = st.arena.length
      then { sid := sid, data := [], changed := false, lastAccessedAt := now,
             idx := (st.heap.length : Int) }
      else getSess st q := by
    intro q
    show getSess (setSessIdx (setSessLast
      { st with arena := st.arena ++ [memNewSession sid] }
      st.arena.length now) st.arena.length _) q = _
    rw [getSess_setSessIdx]
    by_cases hq : q = st.arena.length
    · rw [if_pos ⟨hq, by simp [setSessLast]⟩, if_pos hq, hg2, if_pos rfl]
      rfl
    · rw [if_neg (fun hc => hq hc.1), if_neg hq, hg2, if_neg hq]
  refine ⟨rfl, ?_, ?_, rfl, fun q hq => by rw [hg3, if_neg (Nat.ne_of_lt hq)],
    by rw [hg3, if_pos rfl]⟩
  · unfold createMid
    rw [(memPush_facts _ _).1, show sidOf (setSessLast
      { st with arena := st.arena ++ [memNewSession sid] }
      st.arena.length now) st.arena.length = sid from by
        unfold sidOf
        rw [hg2, if_pos rfl]
        rfl]
    rfl
  · show ((setSessIdx (setSessLast
      { st with arena := st.arena ++ [memNewSession sid] }
      st.arena.length now) st.arena.length _).arena).length = _
    simp [setSessIdx, setSessLast]

theorem memCreateSession_WF (st : MemoryStore) (now : Int) (sid : GoStr)
    (hWF : WF st) (hnone : alookup sid st.index = none) :
    WF (memCreateSession st now sid).2 := by
  obtain ⟨hptr, hpos, hnd, hic, hheap⟩ := hWF
  obtain ⟨hcheap, hcindex, hcarena, hclife, hcold, hcnew⟩ :=
    createMid_facts st now sid
  rw [memCreateSession_eq]
  have hMlen : (createMid st now sid).heap.length = st.heap.length + 1 := by
    rw [hcheap]
    simp
  have hsub : (createMid st now sid).heap.length - 1 = st.heap.length := by
    omega
  rw [hsub]
  have hgetc : ∀ k, k < st.heap.length →
      hGet (createMid st now sid) k = hGet st k := by
    intro k hk
    show (createMid st now sid).heap.getD k 0 = st.heap.getD k 0
    rw [hcheap, List.getD_append _ _ _ _ hk]
  have hgetlast : hGet (createMid st now sid) st.heap.length =
      st.arena.length := by
    show (createMid st now sid).heap.getD st.heap.length 0 = _
    rw [hcheap]
    exact getD_concat_self _ _ _
  have hbc : WFbase (createMid st now sid) := by
    refine ⟨?_, ?_, ?_⟩
    · intro k hk
      rw [hMlen] at hk
      by_cases hkn : k = st.heap.length
      · rw [hkn, hgetlast, hcarena]
        exact Nat.lt_succ_self _
      · rw [hgetc k (by omega), hcarena]
        exact Nat.lt_succ_of_lt (hptr k (by omega))
    · intro k hk
      rw [hMlen] at hk
      by_cases hkn : k = st.heap.length
      · rw [hkn, hgetlast, hcnew]
      · have hks : k < st.heap.length := by omega
        rw [hgetc k hks, hcold _ (hptr k hks)]
        exact hpos k hks
    · rw [hcheap, List.nodup_append]
      refine ⟨hnd, List.nodup_singleton _, ?_⟩
      intro a ha hb
      rw [List.mem_singleton] at hb
      subst hb
      rw [mem_iff_getD _ _ 0] at ha
      obtain ⟨k2, hk2, hk2a⟩ := ha
      have hlt := hptr k2 hk2
      have hx : hGet st k2 = st.arena.length := hk2a
      exact absurd hx (Nat.ne_of_lt hlt)
  have hicc : IndexCorrect (createMid st now sid) := by
    obtain ⟨hkn, hv, hl⟩ := hic
    refine ⟨?_, ?_, ?_⟩
    · rw [hcindex]
      unfold aupsert
      rw [aeraseKey_noop hnone, List.map_cons, List.nodup_cons]
      refine ⟨?_, hkn⟩
      intro hmemm
      rw [List.mem_map] at hmemm
      obtain ⟨kv, hkv, hkv1⟩ := hmemm
      rw [alookup_eq_none_iff] at hnone
      exact hnone kv hkv hkv1
    · intro kv hkv
      rw [hcindex] at hkv
      unfold aupsert at hkv
      rw [aeraseKey_noop hnone, List.mem_cons] at hkv
      rcases hkv with hkv | hkv
      · subst hkv
        refine ⟨?_, ?_⟩
        · show st.arena.length ∈ (createMid st now sid).heap
          rw [hcheap]
          simp
        · show sidOf (createMid st now sid) st.arena.length = sid
          unfold sidOf
          rw [hcnew]
      · have hv2 := hv kv hkv
        refine ⟨?_, ?_⟩
        · rw [hcheap]
          exact List.mem_append_left _ hv2.1
        · have hkvA : kv.2 < st.arena.length := by
            have hm := hv2.1
            rw [mem_iff_getD _ _ 0] at hm
            obtain ⟨k2, hk2, hk2a⟩ := hm
            have hlt := hptr k2 hk2
            have hx : hGet st k2 = kv.2 := hk2a
            exact hx ▸ hlt
          unfold sidOf
          rw [hcold _ hkvA]
          exact hv2.2
    · intro q hq
      rw [hcheap, List.mem_append] at hq
      rcases hq with hq | hq
      · have hqA : q < st.arena.length := by
          rw [mem_iff_getD _ _ 0] at hq
          obtain ⟨k2, hk2, hk2a⟩ := hq
          have hlt := hptr k2 hk2
          have hx : hGet st k2 = q := hk2a
          exact hx ▸ hlt
        have hsd : sidOf (createMid st now sid) q = sidOf st q := by
          unfold sidOf
          rw [hcold _ hqA]
        rw [hsd, hcindex]
        have hne2 : sid ≠ sidOf st q := by
          intro he
          have hthis := hl q hq
          rw [← he] at hthis
          rw [hnone] at hthis
          exact Option.noConfusion hthis
        rw [alookup_aupsert_ne _ _ _ _ hne2]
        exact hl q hq
      · rw [List.mem_singleton] at hq
        subst hq
        have hsd : sidOf (createMid st now sid) st.arena.length = sid := by
          unfold sidOf
          rw [hcnew]
        rw [hsd, hcindex]
        exact alookup_aupsert_self _ _ _
  have hlastc : ∀ k, k < st.heap.length →
      lastAt (createMid st now sid) k = lastAt st k := by
    intro k hk
    unfold lastAt
    rw [hgetc k hk, hcold _ (hptr k hk)]
  have hah : AlmostHeapUpAt (createMid st now sid) (st.heap.length + 1)
      st.heap.length := by
    constructor
    · intro c hc hc0 hcn
      have hcs : c < st.heap.length := by omega
      have hpar : parentIdx c < c := by unfold parentIdx; omega
      rw [hlastc c hcs, hlastc (parentIdx c) (by omega)]
      exact hheap c hcs hc0
    · intro hn0 c hc hpc
      exact absurd hc (by unfold parentIdx at hpc; omega)
  have hupWF := heapUpGo_WFbase (createMid st now sid) st.heap.length
    (by omega) hbc
  have hio := idxOnly_heapUpGo (createMid st now sid) st.heap.length
  have hperm := heapUpGo_heap_perm (createMid st now sid) st.heap.length
    (by omega)
  have hupHeap := heapUpGo_heapUpTo (createMid st now sid) st.heap.length
    (st.heap.length + 1) (by omega) (by omega) hah
  refine ⟨hupWF.1, hupWF.2.1, hupWF.2.2,
    indexCorrect_of_idxOnly hio hperm hicc, ?_⟩
  rw [heapUpGo_heap_length, hMlen]
  exact hupHeap

theorem memDestroy_WF (st : MemoryStore) (sid : GoStr) (hWF : WF st) :
    WF (memDestroy st sid).1 := by
  unfold memDestroy
  split
  · exact hWF
  · rename_i p hp
    dsimp only
    have hmem : p ∈ st.heap := (hWF.2.2.2.1.2.1 _ (alookup_mem hp)).1
    obtain ⟨k, hk, hkp, hidx⟩ := ptr_position hWF.2.1 hmem
    have hidxeq : (getSess st p).idx.toNat = k := by
      rw [hidx]
      simp
    rw [hidxeq]
    exact (removeAt_spec st k hWF hk).1

theorem memRead_WF (st : MemoryStore) (now : Int) (sid : GoStr) (hWF : WF st) :
    WF (memRead st now sid).2.1 := by
  unfold memRead
  split
  · rename_i p hp
    dsimp only
    split
    · rename_i hlive
      dsimp only
      obtain ⟨hptr, hpos, hnd, hic, hheap⟩ := hWF
      have hmem : p ∈ st.heap := (hic.2.1 _ (alookup_mem hp)).1
      obtain ⟨k, hk, hkp, hidx⟩ := ptr_position hpos hmem
      have hpA : p < st.arena.length := by
        rw [← hkp]
        exact hptr k hk
      have hfacts := setSessLast_facts st p now
      have hidxeq : (getSess (setSessLast st p now) p).idx.toNat = k := by
        rw [hfacts.2.2.2.2.2.2 p, hidx]
        simp
      rw [hidxeq]
      have hki : ∀ c, c < st.heap.length → c ≠ k →
          lastAt (setSessLast st p now) c = lastAt st c := by
        intro c hc hck
        rw [lastAt_setSessLast st p now hpA c, if_neg (show hGet st c ≠ p from by
          rw [← hkp]
          exact nodup_hGet_ne hnd hc hk hck)]
      have hab : AlmostHeapBothAt (setSessLast st p now) st.heap.length k := by
        constructor
        · intro c hc hc0 hpck hck
          have hpclt : parentIdx c < c := by unfold parentIdx; omega
          rw [hki c hc hck, hki (parentIdx c) (by omega) hpck]
          exact hheap c hc hc0
        · intro hk0 c hc hpck
          have hcbig : 2 * k + 1 ≤ c := by unfold parentIdx at hpck; omega
          have hpk_lt : parentIdx k < k := by unfold parentIdx; omega
          rw [hki c hc (by omega), hki (parentIdx k) (by omega) (by omega)]
          have h1 : lastAt st (parentIdx k) ≤ lastAt st k := hheap k hk hk0
          have h2 : lastAt st (parentIdx c) ≤ lastAt st c :=
            hheap c hc (by omega)
          rw [hpck] at h2
          omega
      have hb1 : WFbase (setSessLast st p now) := by
        refine ⟨?_, ?_, ?_⟩
        · intro q hq
          rw [show hGet (setSessLast st p now) q = hGet st q from rfl,
            hfacts.2.2.2.1]
          exact hptr q hq
        · intro q hq
          rw [show hGet (setSessLast st p now) q = hGet st q from rfl,
            hfacts.2.2.2.2.2.2 (hGet st q)]
          exact hpos q hq
        · exact hnd
      have hic1 : IndexCorrect (setSessLast st p now) := by
        obtain ⟨hkn, hv, hl⟩ := hic
        refine ⟨hkn, ?_, ?_⟩
        · intro kv hkv
          have hv2 := hv kv hkv
          exact ⟨hv2.1, (hfacts.2.2.2.2.1 kv.2).trans hv2.2⟩
        · intro q hq
          rw [hfacts.2.2.2.2.1 q]
          exact hl q hq
      exact heapFixGo_WF (setSessLast st p now) k hb1 hic1 hk hab
    · rename_i hexp
      dsimp only
      have hmem : p ∈ st.heap := (hWF.2.2.2.1.2.1 _ (alookup_mem hp)).1
      obtain ⟨k, hk, hkp, hidx⟩ := ptr_position hWF.2.1 hmem
      have hidxeq : (getSess st p).idx.toNat = k := by
        rw [hidx]
        simp
      rw [hidxeq]
      have rr := removeAt_spec st k hWF hk
      apply memCreateSession_WF _ now sid rr.1
      cases halk : alookup sid (heapRemoveGo st k).1.index with
      | none => rfl
      | some q =>
        exfalso
        have hq := rr.1.2.2.2.1.2.1 _ (alookup_mem halk)
        have hqmem := (rr.2.2.1 q).mp hq.1
        have hsid : sidOf st q = sid := by
          rw [← rr.2.2.2.2.2.1 q]
          exact hq.2
        have hlq := hWF.2.2.2.1.2.2 q hqmem.1
        rw [hsid, hp] at hlq
        injection hlq with hpq
        exact hqmem.2 (by rw [hkp, hpq])
  · rename_i hnone
    dsimp only
    exact memCreateSession_WF st now sid hWF hnone

theorem memGCLoop_WF (st : MemoryStore) (now : Int) (done : Nat → Bool)
    (k : Nat) (hWF : WF st) : WF (memGCLoop st now done k) := by
  rw [memGCLoop]
  dsimp only
  split
  · exact hWF
  · split
    · exact hWF
    · split
      · exact hWF
      · rename_i hdone hzero hfresh
        have hidx0 : (getSess st (hGet st 0)).idx.toNat = 0 := by
          rw [hWF.2.1 0 (by omega)]
          rfl
        rw [hidx0]
        exact memGCLoop_WF _ now done (k + 1)
          (removeRoot_spec st hWF (by omega)).1
termination_by st.heap.length
decreasing_by
  rw [heapRemoveGo_heap_length]
  omega

/-- `newMemoryStore` of `memory.go`: empty heap, empty index, the
configured lifetime (the arena is the model's session storage, initially
empty). -/
def newMemoryStore (lifetime : Int) : MemoryStore :=
  { lifetime := lifetime, heap := [], index := [], arena := [] }

theorem newMemoryStore_WF (lifetime : Int) : WF (newMemoryStore lifetime) :=
  ⟨fun k hk => absurd hk (Nat.not_lt_zero k),
   fun k hk => absurd hk (Nat.not_lt_zero k),
   List.nodup_nil,
   ⟨List.nodup_nil, fun kv hkv => absurd hkv (List.not_mem_nil kv),
    fun p hp => absurd hp (List.not_mem_nil p)⟩,
   fun j hj _ => absurd hj (Nat.not_lt_zero j)⟩

/-- One call against the memory store: the state-changing interface
methods of `memoryStore` (`Exist` reads only). -/
inductive StoreOp where
  | read (now : Int) (sid : GoStr)
  | destroy (sid : GoStr)
  | save
  | gc (now : Int) (done : Nat → Bool)

/-- The state after one store call. -/
def applyStoreOp (st : MemoryStore) : StoreOp → MemoryStore
  | .read now sid => (memRead st now sid).2.1
  | .destroy sid => (memDestroy st sid).1
  | .save => (memSave st).1
  | .gc now done => (memGC st now done).1

/-- The state after a sequence of store calls. -/
def runStoreOps (st : MemoryStore) : List StoreOp → MemoryStore
  | [] => st
  | op :: ops => runStoreOps (applyStoreOp st op) ops

theorem applyStoreOp_WF (st : MemoryStore) (op : StoreOp) (hWF : WF st) :
    WF (applyStoreOp st op) := by
  cases op with
  | read now sid => exact memRead_WF st now sid hWF
  | destroy sid => exact memDestroy_WF st sid hWF
  | save => exact hWF
  | gc now done => exact memGCLoop_WF st now done 0 hWF

theorem runStoreOps_WF (st : MemoryStore) (ops : List StoreOp) (hWF : WF st) :
    WF (runStoreOps st ops) := by
  induction ops generalizing st with
  | nil => exact hWF
  | cons op ops ih => exact ih _ (applyStoreOp_WF st op hWF)

/-- Every store state reachable from `newMemoryStore` through any sequence
of `Read`, `Destroy`, `Save` and `GC` calls is well-formed: the memory
store's pointer, position, index-map and heap-order invariants are
maintained by every interface method. -/
theorem memoryStore_reachable_WF (lifetime : Int) (ops : List StoreOp) :
    WF (runStoreOps (newMemoryStore lifetime) ops) :=
  runStoreOps_WF _ ops (newMemoryStore_WF lifetime)

/-! ### Claim theorems -/

/-- C6: whenever the random source succeeds, `randomChars(n)` returns a
string of length `n` over the alphabet `0-9a-z`, hence structurally valid;
and `isValidSessionID(candidate, n)` holds iff the candidate has length `n`
and every byte is a digit or lowercase letter, so wrong-length and
out-of-alphabet strings are rejected. -/
theorem randomChars_and_isValidSessionID_spec :
    (∀ (oracle : Nat → Option (Fin 36)) (n : Nat) (s : GoStr),
        randomChars oracle n = some s →
          s.length = n ∧ (∀ c ∈ s, c ∈ alphanum) ∧
          isValidSessionID s n = true) ∧
    (∀ (s : GoStr) (n : Nat),
        isValidSessionID s n = true ↔
          s.length = n ∧ ∀ c ∈ s, isAlnumByte c = true) := by
  constructor
  · intro oracle n s h
    obtain ⟨hlen, hmem⟩ := randomCharsFrom_spec oracle n 0 s h
    refine ⟨hlen, hmem, ?_⟩
    rw [isValidSessionID_iff]
    exact ⟨hlen, fun c hc => (mem_alphanum_iff c).mp (hmem c hc)⟩
  · exact isValidSessionID_iff

/-- C6 witness: the oracle that always yields index 7 makes `randomChars 3`
produce `"777"`, which the theorem certifies valid. -/
theorem randomChars_and_isValidSessionID_spec_witness :
    ([55, 55, 55] : GoStr).length = 3 ∧
    (∀ c ∈ ([55, 55, 55] : GoStr), c ∈ alphanum) ∧
    isValidSessionID [55, 55, 55] 3 = true :=
  randomChars_and_isValidSessionID_spec.1
    (fun _ => some ⟨7, by decide⟩) 3 [55, 55, 55] (by decide)

/-- C9: a fresh `BaseSession` has `changed = false`; `Set`, `SetFlash`,
`Delete` (also of an absent key) and `Flush` all set it; and no operation
resets it, so `HasChanged` is monotone over any operation sequence. -/
theorem baseSession_changed_monotone :
    (∀ (sid : GoStr) (enc : Data → Option GoStr),
        (newBaseSession sid enc).changed = false) ∧
    (∀ (s : BaseSession) (op : SessOp), (applyOp s op).changed = true) ∧
    (∀ (s : BaseSession) (ops : List SessOp),
        s.hasChanged = true → (applyOps s ops).hasChanged = true) := by
  refine ⟨fun _ _ => rfl, ?_, ?_⟩
  · intro s op
    cases op <;> rfl
  · intro s ops
    induction ops generalizing s with
    | nil => exact fun h => h
    | cons op t ih =>
      intro _
      exact ih (applyOp s op) (by cases op <;> rfl)

/-- C9 witness: a session that was mutated once stays changed after more
operations. -/
theorem baseSession_changed_monotone_witness :
    (applyOps ((newBaseSession [] (fun _ => none)).set (GoVal.vint 1)
      (GoVal.vint 2)) [SessOp.del (GoVal.vint 9), SessOp.flush]).hasChanged
      = true :=
  baseSession_changed_monotone.2.2 _ _ rfl

/-- C10: the default `WriteIDFunc` adds the session cookie to the response
exactly when the session was newly created; with `created = false` the
response is returned unchanged. -/
theorem defaultWriteIDFunc_cookie_iff_created :
    ∀ (o : CookieOpts) (resp : List GoCookie) (sid : GoStr),
      defaultWriteIDFunc o resp sid false = resp ∧
      defaultWriteIDFunc o resp sid true = resp ++ [mkSessionCookie o sid] ∧
      defaultWriteIDFunc o resp sid true ≠ resp := by
  intro o resp sid
  refine ⟨rfl, rfl, ?_⟩
  intro h
  have hl := congrArg List.length h
  simp [defaultWriteIDFunc] at hl

/-- C8: the four fallible memory-store operations return a `nil` error on
every input and every state (`Exist` returns a plain boolean and cannot
fail). -/
theorem memoryStore_never_errors :
    ∀ (st : MemoryStore) (now : Int) (sid : GoStr) (done : Nat → Bool),
      (memRead st now sid).2.2 = none ∧
      (memDestroy st sid).2 = none ∧
      (memSave st).2 = none ∧
      (memGC st now done).2 = none := by
  intro st now sid done
  refine ⟨?_, ?_, rfl, rfl⟩
  · unfold memRead
    cases alookup sid st.index with
    | none => rfl
    | some p =>
      dsimp only
      split <;> rfl
  · unfold memDestroy
    cases alookup sid st.index <;> rfl

/-- C2 (failing-input evaluation): on the postgres backend, saving session
`"2"` with `name = "x"` at time 0 under lifetime 100 stores the row with
`expired_at = 100`, yet a `Read` at time 150 — past `T + L = 100` — still
returns the stored payload instead of a freshly empty session, even though
a `GC` at 150 would already delete the row.  (The memory backend does
discard at `T + L`: see `memRead_expired_returns_fresh`.) -/
theorem pgRead_keeps_payload_past_lifetime :
    (pgSave 100 0 [] pgDemoSess).toOption = some pgDemoDB ∧
    sessGetKV (pgRead decDemoKV encDemoKV 100 150 pgDemoDB [50]) nameKey
      = some xVal ∧
    pgExist (pgGC 150 pgDemoDB) [50] = false ∧
    ((150 : Int) ≥ 0 + 100) := by
  refine ⟨by decide, by decide, by decide, by norm_num⟩

/-- The memory backend's `Read` on an entry whose lifetime has elapsed
returns a freshly empty session carrying the same ID: every `Get` on it is
`nil`, regardless of whether `GC` has run. -/
theorem memRead_expired_returns_fresh (st : MemoryStore) (sid : GoStr)
    (p : Ptr) (T now : Int) (hfound : alookup sid st.index = some p)
    (hlast : lastOf st p = T) (hexp : T + st.lifetime ≤ now) :
    sidOf (memRead st now sid).2.1 (memRead st now sid).1 = sid ∧
    dataOf (memRead st now sid).2.1 (memRead st now sid).1 = [] ∧
    (∀ key, alookup key (dataOf (memRead st now sid).2.1
      (memRead st now sid).1) = none) := by
  unfold memRead
  rw [hfound]
  dsimp only
  rw [if_neg (by
    show ¬ now < (getSess st p).lastAccessedAt + st.lifetime
    have : (getSess st p).lastAccessedAt = T := hlast
    omega)]
  dsimp only
  have hcf := memCreateSession_facts
    (heapRemoveGo st (getSess st p).idx.toNat).1 now sid
  rw [show (memCreateSession (heapRemoveGo st (getSess st p).idx.toNat).1
      now sid).1 = (heapRemoveGo st (getSess st p).idx.toNat).1.arena.length
    from hcf.1]
  refine ⟨hcf.2.2.2.1, hcf.2.2.2.2.1, ?_⟩
  intro key
  rw [hcf.2.2.2.2.1]
  rfl

theorem memCreateSession_arena_length (st : MemoryStore) (now : Int)
    (sid : GoStr) :
    (memCreateSession st now sid).2.arena.length = st.arena.length + 1 := by
  unfold memCreateSession
  dsimp only
  rw [(heapPushAlg_facts _ _).2.2.1]
  show (setSessLast _ _ _).arena.length = _
  simp [setSessLast]

/-- C4: reading a non-existent ID creates a record; a second read of the
same ID before the lifetime elapses returns that very record (the same
pointer), with its last-access time refreshed to the second read's time. -/
theorem memRead_twice_same_record (st : MemoryStore) (sid : GoStr)
    (t1 t2 : Int) (habs : alookup sid st.index = none)
    (hwin : t2 < t1 + st.lifetime) :
    (memRead (memRead st t1 sid).2.1 t2 sid).1 = (memRead st t1 sid).1 ∧
    lastOf (memRead (memRead st t1 sid).2.1 t2 sid).2.1
      (memRead st t1 sid).1 = t2 := by
  have hcf := memCreateSession_facts st t1 sid
  have halen := memCreateSession_arena_length st t1 sid
  have h1 : memRead st t1 sid =
      ((memCreateSession st t1 sid).1, (memCreateSession st t1 sid).2, none) := by
    unfold memRead
    rw [habs]
  rw [h1]
  dsimp only
  have hlook : alookup sid (memCreateSession st t1 sid).2.index
      = some st.arena.length := by
    rw [hcf.2.1]
    exact alookup_aupsert_self _ _ _
  have hlast1 : (getSess (memCreateSession st t1 sid).2 st.arena.length).lastAccessedAt
      = t1 := hcf.2.2.2.2.2
  have hlife1 : (memCreateSession st t1 sid).2.lifetime = st.lifetime :=
    hcf.2.2.1
  have h2 : memRead (memCreateSession st t1 sid).2 t2 sid =
      (st.arena.length,
       heapFixGo (setSessLast (memCreateSession st t1 sid).2 st.arena.length t2)
         ((getSess (setSessLast (memCreateSession st t1 sid).2 st.arena.length t2)
           st.arena.length).idx.toNat), none) := by
    unfold memRead
    rw [hlook]
    dsimp only
    rw [if_pos (by rw [hlast1, hlife1]; exact hwin)]
  rw [h2]
  dsimp only
  refine ⟨hcf.1.symm, ?_⟩
  rw [hcf.1]
  have hfix := idxOnly_heapFixGo
    (setSessLast (memCreateSession st t1 sid).2 st.arena.length t2)
    ((getSess (setSessLast (memCreateSession st t1 sid).2 st.arena.length t2)
      st.arena.length).idx.toNat)
  rw [hfix.la]
  unfold lastOf
  have hcond : st.arena.length < (memCreateSession st t1 sid).2.arena.length := by
    rw [halen]
    omega
  rw [getSess_setSessLast, if_pos ⟨rfl, hcond⟩]

/-- C4 witness: two immediate reads of ID `"a"` on the empty store yield
the same pointer, with the last-access time refreshed. -/
theorem memRead_twice_same_record_witness :
    (memRead (memRead memStoreEmpty 0 [97]).2.1 5 [97]).1
      = (memRead memStoreEmpty 0 [97]).1 ∧
    lastOf (memRead (memRead memStoreEmpty 0 [97]).2.1 5 [97]).2.1
      (memRead memStoreEmpty 0 [97]).1 = 5 :=
  memRead_twice_same_record memStoreEmpty [97] 0 5 (by decide) (by decide)

/-- On the postgres backend, `Touch` rewrites only the touched row's
`expired_at` to `now + lifetime` — payload untouched, other rows untouched
— so a `GC` run at any `g < now + lifetime` (in particular one at which the
old horizon `expired_at ≤ g` had already passed) leaves the ID present;
`Touch` of an unknown ID leaves the table unchanged and is not an error. -/
theorem pgTouch_extends_expiry_noop_unknown (L now g : Int) (db : PgDB)
    (sid : GoStr) :
    (∀ row, alookup sid db = some row →
        alookup sid (pgTouch L now db sid)
          = some { row with expiredAt := now + L } ∧
        (g < now + L → pgExist (pgGC g (pgTouch L now db sid)) sid = true)) ∧
    (∀ sid2, sid2 ≠ sid →
        alookup sid2 (pgTouch L now db sid) = alookup sid2 db) ∧
    (alookup sid db = none → pgTouch L now db sid = db) := by
  refine ⟨?_, ?_, pgTouch_noop L now db sid⟩
  · intro row hrow
    have hself : alookup sid (pgTouch L now db sid)
        = some { row with expiredAt := now + L } := by
      rw [alookup_pgTouch_self, hrow]
      rfl
    refine ⟨hself, ?_⟩
    intro hg
    unfold pgExist pgGC
    rw [alookup_filter _ hself (by simp; omega)]
    rfl
  · intro sid2 h2
    exact alookup_pgTouch_ne L now db sid sid2 h2

/-- Concrete run of the postgres `Touch` property: a row that would have
expired at time 5 is touched at time 7 with lifetime 10; the GC at time 12
(past the old horizon) keeps it. -/
theorem pgTouch_extends_expiry_noop_unknown_witness :
    (alookup [97] (pgTouch 10 7 pgTouchDemoDB [97])
      = some { bin := [0], expiredAt := 17 } ∧
    (12 < (17 : Int) → pgExist (pgGC 12 (pgTouch 10 7 pgTouchDemoDB [97])) [97]
      = true)) ∧
    pgTouch 10 7 [] [97] = [] := by
  refine ⟨?_, ?_⟩
  · have h := (pgTouch_extends_expiry_noop_unknown 10 7 12 pgTouchDemoDB
      [97]).1 { bin := [0], expiredAt := 5 } (by decide)
    exact ⟨h.1, fun _ => h.2 (by norm_num)⟩
  · exact (pgTouch_extends_expiry_noop_unknown 10 7 12 [] [97]).2.2 (by decide)

/-- On the redis backend, `Touch` (`EXPIRE keyPrefix+sid lifetime`)
rewrites only the touched key's deadline to `now + lifetime` — stored
bytes untouched, other keys untouched — so the server's TTL sweep at any
`g < now + lifetime` (in particular one past the key's old deadline)
keeps the key; `Touch` of an unknown ID leaves the keyspace unchanged and
is not an error. -/
theorem redisTouch_extends_expiry_noop_unknown (L now g : Int)
    (db : RedisDB) (pfx sid : GoStr) :
    (∀ v, alookup (pfx ++ sid) db = some v →
        redisTouch L now db pfx sid =
          (aupsert (pfx ++ sid) { v with expireAt := now + L } db, none) ∧
        alookup (pfx ++ sid)
            (aupsert (pfx ++ sid) { v with expireAt := now + L } db)
          = some { v with expireAt := now + L } ∧
        (∀ k2, k2 ≠ pfx ++ sid →
            alookup k2 (aupsert (pfx ++ sid) { v with expireAt := now + L } db)
              = alookup k2 db) ∧
        (g < now + L →
            alookup (pfx ++ sid)
                (redisSweep g
                  (aupsert (pfx ++ sid) { v with expireAt := now + L } db))
              = some { v with expireAt := now + L })) ∧
    (alookup (pfx ++ sid) db = none →
        redisTouch L now db pfx sid = (db, none)) := by
  constructor
  · intro v hv
    refine ⟨?_, alookup_aupsert_self _ _ _, ?_, ?_⟩
    · unfold redisTouch
      rw [hv]
    · intro k2 hk2
      exact alookup_aupsert_ne _ _ _ _ (fun he => hk2 he.symm)
    · intro hg
      unfold redisSweep
      exact alookup_filter _ (alookup_aupsert_self _ _ _) (by simp; omega)
  · intro hv
    unfold redisTouch
    rw [hv]

/-- Concrete run of the redis `Touch` property: a key whose deadline 5 has
passed is touched at time 7 with lifetime 10; the TTL sweep at time 12
keeps it, and touching a missing key changes nothing. -/
theorem redisTouch_extends_expiry_noop_unknown_witness :
    redisTouch 10 7 [([115, 97], { bin := [0], expireAt := 5 })] [115] [97] =
      ([([115, 97], { bin := [0], expireAt := 17 })], none) ∧
    alookup [115, 97]
        (redisSweep 12 (redisTouch 10 7
          [([115, 97], { bin := [0], expireAt := 5 })] [115] [97]).1)
      = some { bin := [0], expireAt := 17 } ∧
    redisTouch 10 7 [] [115] [97] = ([], none) := by
  have h := (redisTouch_extends_expiry_noop_unknown 10 7 12
    [([115, 97], { bin := [0], expireAt := 5 })] [115] [97]).1
    { bin := [0], expireAt := 5 } (by decide)
  refine ⟨?_, ?_, (redisTouch_extends_expiry_noop_unknown 10 7 12 [] [115]
    [97]).2 (by decide)⟩
  · exact h.1
  · rw [h.1]
    exact h.2.2.2 (by norm_num)

/-- On the file backend, for any identifier of at least the minimum
length, `Touch` of an existing file rewrites only that file's
modification time to `now` (`os.Chtimes`) — content untouched, other
files untouched — which moves the expiry horizon `ModTime() + lifetime`
to `now + lifetime`, so a `GC` run at any `g < now + lifetime` keeps the
file; `Touch` of an identifier with no file returns `nil` having changed
nothing. -/
theorem fileTouch_extends_expiry_noop_unknown (L now g : Int) (fs : FileDB)
    (c0 c1 c2 : Nat) (rest : GoStr) :
    (∀ fi, alookup (c0 :: c1 :: c0 :: c1 :: c2 :: rest) fs = some fi →
        fileTouch now fs (c0 :: c1 :: c2 :: rest) =
          some (aupsert (c0 :: c1 :: c0 :: c1 :: c2 :: rest)
            { fi with modTime := now } fs, none) ∧
        alookup (c0 :: c1 :: c0 :: c1 :: c2 :: rest)
            (aupsert (c0 :: c1 :: c0 :: c1 :: c2 :: rest)
              { fi with modTime := now } fs)
          = some { fi with modTime := now } ∧
        (∀ p2, p2 ≠ c0 :: c1 :: c0 :: c1 :: c2 :: rest →
            alookup p2 (aupsert (c0 :: c1 :: c0 :: c1 :: c2 :: rest)
              { fi with modTime := now } fs) = alookup p2 fs) ∧
        (g < now + L →
            fileExist (fileGC L g (aupsert (c0 :: c1 :: c0 :: c1 :: c2 :: rest)
              { fi with modTime := now } fs)) (c0 :: c1 :: c2 :: rest)
              = true)) ∧
    (alookup (c0 :: c1 :: c0 :: c1 :: c2 :: rest) fs = none →
        fileTouch now fs (c0 :: c1 :: c2 :: rest) = some (fs, none)) := by
  constructor
  · intro fi hfi
    refine ⟨?_, alookup_aupsert_self _ _ _, ?_, ?_⟩
    · unfold fileTouch fileFilename
      dsimp only
      rw [hfi]
    · intro p2 hp2
      exact alookup_aupsert_ne _ _ _ _ (fun he => hp2 he.symm)
    · intro hg
      unfold fileExist
      rw [if_neg (by simp only [List.length_cons]; omega)]
      unfold fileFilename
      dsimp only
      rw [show alookup (c0 :: c1 :: c0 :: c1 :: c2 :: rest)
          (fileGC L g (aupsert (c0 :: c1 :: c0 :: c1 :: c2 :: rest)
            { fi with modTime := now } fs))
          = some { fi with modTime := now } from by
        unfold fileGC
        exact alookup_filter _ (alookup_aupsert_self _ _ _) (by simp; omega)]
      rfl
  · intro hfi
    unfold fileTouch fileFilename
    dsimp only
    rw [hfi]

/-- Concrete run of the file `Touch` property on identifiers long enough
for the minimum-length guard: touching the existing file of `"abc"`
(path `a/b/abc`) at time 7 with lifetime 10 restamps it so the GC at time
12 keeps it, and touching absent `"abc"` changes nothing. -/
theorem fileTouch_extends_expiry_noop_unknown_witness :
    fileTouch 7 [([97, 98, 97, 98, 99], { bin := [0], modTime := -9 })]
        [97, 98, 99] =
      some ([([97, 98, 97, 98, 99], { bin := [0], modTime := 7 })], none) ∧
    fileExist (fileGC 10 12
        [([97, 98, 97, 98, 99], { bin := [0], modTime := 7 })]) [97, 98, 99]
      = true ∧
    fileTouch 7 [] [97, 98, 99] = some ([], none) := by
  have h := (fileTouch_extends_expiry_noop_unknown 10 7 12
    [([97, 98, 97, 98, 99], { bin := [0], modTime := -9 })] 97 98 99 []).1
    { bin := [0], modTime := -9 } (by decide)
  refine ⟨h.1, h.2.2.2 (by norm_num),
    (fileTouch_extends_expiry_noop_unknown 10 7 12 [] 97 98 99 []).2
      (by decide)⟩

/-- C5: refuted on the file backend. The claim — with the spec's `Touch`
contract and the `Store` interface comment — requires `Touch` of an
unknown identifier to do nothing and return no error, and postgres, redis
and file (for identifiers of at least two bytes) all satisfy the full
property; but `fileStore.Touch` computes `filename(sid)`, which indexes
`sid[0]` and `sid[1]`, before its missing-file check and — alone among
the `fileStore` methods — without the `minimumSIDLength` guard, so
touching an unknown identifier shorter than two bytes crashes with an
index-out-of-range runtime fault (`none` here) instead of the required
`nil` no-op; a two-byte unknown identifier still gets the no-op,
isolating the missing guard as the divergence. -/
theorem fileTouch_unknown_short_sid_crashes :
    fileTouch 150 [] [97] = none ∧
    fileTouch 150 [] [] = none ∧
    fileTouch 150 [] [97, 98] = some ([], none) :=
  ⟨rfl, rfl, rfl⟩

/-- C3: on a well-formed store state, `memoryStore.GC` at time `now`
removes exactly the sessions whose `lastAccessedAt + lifetime` has passed
(no live session is removed, no expired one remains), and afterwards the
heap and the index map stay mutually consistent: equal sizes, every
session's `index` field equal to its heap position, and the index mapping
each heap member's ID back to that member. -/
theorem memGC_removes_exactly_expired (st : MemoryStore) (now : Int)
    (hWF : WF st) :
    (∀ p, p ∈ (memGC st now (fun _ => false)).1.heap ↔
        (p ∈ st.heap ∧ now < lastOf st p + st.lifetime)) ∧
    (memGC st now (fun _ => false)).1.heap.length
      = (memGC st now (fun _ => false)).1.index.length ∧
    (∀ k, k < (memGC st now (fun _ => false)).1.heap.length →
        (getSess (memGC st now (fun _ => false)).1
          (hGet (memGC st now (fun _ => false)).1 k)).idx = (k : Int)) ∧
    (∀ p, p ∈ (memGC st now (fun _ => false)).1.heap →
        alookup (sidOf (memGC st now (fun _ => false)).1 p)
          (memGC st now (fun _ => false)).1.index = some p) := by
  have h := memGCLoop_spec st now 0 hWF
  exact ⟨h.2.1,
    indexCorrect_length h.1.2.2.1 h.1.2.2.2.1,
    h.1.2.1,
    h.1.2.2.2.1.2.2⟩

/-- C3 witness: in a three-session store (last accesses 0, 5, 10; lifetime
7), GC at time 10 evicts exactly the session accessed at 0, leaving a
consistent heap/index pair. -/
theorem memGC_removes_exactly_expired_witness :
    (∀ p, p ∈ (memGC gcWitnessStore 10 (fun _ => false)).1.heap ↔
        (p ∈ gcWitnessStore.heap ∧
          10 < lastOf gcWitnessStore p + gcWitnessStore.lifetime)) ∧
    (memGC gcWitnessStore 10 (fun _ => false)).1.heap.length
      = (memGC gcWitnessStore 10 (fun _ => false)).1.index.length ∧
    (∀ k, k < (memGC gcWitnessStore 10 (fun _ => false)).1.heap.length →
        (getSess (memGC gcWitnessStore 10 (fun _ => false)).1
          (hGet (memGC gcWitnessStore 10 (fun _ => false)).1 k)).idx
          = (k : Int)) ∧
    (∀ p, p ∈ (memGC gcWitnessStore 10 (fun _ => false)).1.heap →
        alookup (sidOf (memGC gcWitnessStore 10 (fun _ => false)).1 p)
          (memGC gcWitnessStore 10 (fun _ => false)).1.index = some p) :=
  memGC_removes_exactly_expired gcWitnessStore 10 (by
    unfold WF PtrValid PosInv IndexCorrect HeapUpTo
    decide)

/-- C1 counterexample: `"aaa"` is structurally valid for idLength 3 and
absent from the (empty) memory store, so the claim requires a freshly
generated ID and `created = true`; the current `manager.load` never
consults `Exist`, reads the same ID and reports `created = false`. -/
theorem managerLoad_exist_check_counterexample :
    isValidSessionID [97, 97, 97] 3 = true ∧
    (memGoStore 0).exist memStoreEmpty [97, 97, 97] = false ∧
    loadCreatedFlag (managerLoad (memGoStore 0)
      (fun _ => some ⟨0, Nat.succ_pos 35⟩) memStoreEmpty [97, 97, 97] 3)
      = some false := by
  refine ⟨by decide, by decide, ?_⟩
  unfold managerLoad
  rw [if_pos (by decide)]
  rfl

/-- C1 (amended): `manager.load` reports `created = false` and delegates to
`Store.Read(sid)` whenever `sid` is structurally valid — regardless of
whether the store has an entry (`Read` then creates one under the same ID);
only a structurally invalid `sid` makes it generate a fresh random ID,
read that, and report `created = true` (or fail when the random source
fails). -/
theorem managerLoad_valid_or_fresh {σ Sess : Type} (S : GoStore σ Sess)
    (oracle : Nat → Option (Fin 36)) (st : σ) (sid : GoStr) (n : Nat) :
    (isValidSessionID sid n = true →
        ∀ sess st2, S.read st sid = .ok (sess, st2) →
          managerLoad S oracle st sid n = .ok (sess, false, st2)) ∧
    (isValidSessionID sid n = false →
        ∀ fresh, randomChars oracle n = some fresh →
          ∀ sess st2, S.read st fresh = .ok (sess, st2) →
            managerLoad S oracle st sid n = .ok (sess, true, st2)) ∧
    (isValidSessionID sid n = false → randomChars oracle n = none →
        managerLoad S oracle st sid n = .error "new ID") := by
  refine ⟨?_, ?_, ?_⟩
  · intro hv sess st2 hr
    unfold managerLoad
    rw [if_pos hv, hr]
  · intro hv fresh hfr sess st2 hr
    unfold managerLoad
    rw [if_neg (by simp [hv]), hfr]
    dsimp only
    rw [hr]
  · intro hv hnone
    unfold managerLoad
    rw [if_neg (by simp [hv]), hnone]

/-- C1 witness: loading the valid ID `"aaa"` on the empty memory store
delegates to `Read` of the same ID with `created = false`. -/
theorem managerLoad_valid_or_fresh_witness :
    managerLoad (memGoStore 0) (fun _ => none) memStoreEmpty [97, 97, 97] 3
      = .ok ((memRead memStoreEmpty 0 [97, 97, 97]).1, false,
             (memRead memStoreEmpty 0 [97, 97, 97]).2.1) :=
  (managerLoad_valid_or_fresh (memGoStore 0) (fun _ => none) memStoreEmpty
    [97, 97, 97] 3).1 (by decide) _ _ rfl

/-- C7 counterexample: Go's `select` gives no priority to the stop case.
The schedule that always picks the (ready) ticker case is admissible under
the Go specification, so at iteration 0 — both channels ready — the branch
taken is not the stop branch, and the loop is still running after three
more iterations. -/
theorem startGC_stop_tie_counterexample :
    schedValid bothReady alwaysTick ∧
    alwaysTick 0 ≠ GCChoice.stop ∧
    gcLoopRunning alwaysTick 3 = true := by
  refine ⟨?_, by decide, by decide⟩
  intro k
  exact ⟨fun _ => rfl, fun _ => rfl⟩

/-- C7 (amended): under any admissible schedule the `startGC` goroutine
enters its loop, terminates exactly at the first iteration whose `select`
chooses the stop case, and the stop case can only be chosen while the stop
channel is ready — no tie priority exists. -/
theorem startGC_select_termination (ready : Nat → ChanReady)
    (sched : Nat → GCChoice) (hv : schedValid ready sched) (k : Nat) :
    (gcLoopRunning sched (k + 1) = false ↔
      (gcLoopRunning sched k = false ∨ sched k = GCChoice.stop)) ∧
    (sched k = GCChoice.stop → (ready k).stopReady = true) ∧
    gcLoopRunning sched 0 = true := by
  refine ⟨?_, (hv k).1, rfl⟩
  cases h1 : gcLoopRunning sched k <;> cases h2 : sched k <;>
    simp [gcLoopRunning, h1, h2]

/-- C7 witness: the amended statement at iteration 0 of the all-ticks
schedule with both channels ready. -/
theorem startGC_select_termination_witness :
    (gcLoopRunning alwaysTick 1 = false ↔
      (gcLoopRunning alwaysTick 0 = false ∨ alwaysTick 0 = GCChoice.stop)) ∧
    (alwaysTick 0 = GCChoice.stop → (bothReady 0).stopReady = true) ∧
    gcLoopRunning alwaysTick 0 = true :=
  startGC_select_termination bothReady alwaysTick
    (fun _ => ⟨fun _ => rfl, fun _ => rfl⟩) 0

end FlamegoSession
